import Mathlib

/-!
Shallow embedding of the Schema Intelligence & Caching Engine of the
`sqlgen` repository (backend/app): the schema data model
(`app/models/schema.py`), the schema analyzer (`app/utils/schema_analyzer.py`),
the relevance-ranking retrieval module (`app/utils/retrieval.py`) and the
TTL/LRU cache (`app/services/cache_service.py`), together with theorems
settling the frozen claims C1-C10.

Modelling conventions:
* Python wall-clock times (`time.time()`) become explicit `Nat` timestamps
  passed to every operation that reads the clock.
* Python `dict` (insertion ordered) becomes an association list
  `List (String × _)`; assignment updates in place, new keys are appended.
* Python's stable `sorted` becomes the stable insertion sort `pySorted`.
* Python floats become exact real numbers `ℝ` where a claim needs the
  numeric value, with computable integer companions used for comparisons.
* `hashlib.sha256` / `hashlib.md5` over ASCII text are implemented over
  `List Nat` byte lists (`Char.toNat` equals the UTF-8 byte for ASCII).
-/

/-! ## Generic list helpers -/

/-- Stable insertion of `x` into a list: `x` goes after every element `y`
with `le y x` (so equal elements keep their original relative order). -/
def insertPy {α : Type} (le : α → α → Bool) (x : α) : List α → List α
  | [] => [x]
  | y :: ys => if le y x then y :: insertPy le x ys else x :: y :: ys

/-- Stable sort, modelling Python's built-in `sorted` with comparator `le`
("`a` may come before `b`"): elements comparing equal keep input order. -/
def pySorted {α : Type} (le : α → α → Bool) (l : List α) : List α :=
  l.foldl (fun acc x => insertPy le x acc) []

/-- First-occurrence deduplication, modelling Python's
`dict.fromkeys(...)` / set-membership guards (keeps first occurrence). -/
def dedupFirst (l : List String) : List String :=
  l.foldl (fun acc x => if x ∈ acc then acc else acc ++ [x]) []

/-! ## Data model (`app/models/schema.py`) -/

/-- Normalized column type categories (`ColumnType` enum). -/
inductive ColumnType where
  | INTEGER | VARCHAR | TEXT | REAL | BLOB | BOOLEAN | DATETIME
  | DATE | TIME | DECIMAL | FLOAT | DOUBLE | UNKNOWN
deriving DecidableEq, Repr

/-- Column metadata (`ColumnInfo`). -/
structure ColumnInfo where
  name : String
  type : String
  type_category : ColumnType := ColumnType.UNKNOWN
  nullable : Bool := true
  primary_key : Bool := false
  foreign_key : Option String := none
  default_value : Option String := none
  max_length : Option Nat := none
  auto_increment : Bool := false
deriving DecidableEq, Repr

/-- Directed foreign-key edge (`ForeignKeyRelation`). -/
structure ForeignKeyRelation where
  from_table : String
  from_column : String
  to_table : String
  to_column : String
  constraint_name : Option String := none
deriving DecidableEq, Repr

/-- Table metadata (`TableInfo`). -/
structure TableInfo where
  name : String
  columns : List ColumnInfo
  primary_keys : List String := []
  foreign_keys : List ForeignKeyRelation := []
  row_count : Option Nat := none
  table_comment : Option String := none
deriving DecidableEq, Repr

/-- Whole-database schema (`DatabaseSchema`). -/
structure DatabaseSchema where
  database_name : String
  database_type : String
  tables : List TableInfo
  relationships : List ForeignKeyRelation := []
  total_tables : Nat
  schema_version : String := "1.0"
  extracted_at : String
deriving DecidableEq, Repr

/-- Case-insensitive table lookup (`DatabaseSchema.get_table`): first table
whose lowercased name matches. -/
def DatabaseSchema.get_table (schema : DatabaseSchema) (table_name : String) :
    Option TableInfo :=
  schema.tables.find? (fun t => t.name.toLower == table_name.toLower)

/-! ## Join-path graph (`find_shortest_join_path` in
`app/utils/schema_analyzer.py`) -/

/-- Neighbor list of `v` in the undirected adjacency built from the
relationships: per relationship (in order), `to_table` is appended to the
`from_table` bucket and `from_table` to the `to_table` bucket. -/
def neighbors (rels : List ForeignKeyRelation) (v : String) : List String :=
  rels.flatMap (fun r =>
    (if r.from_table = v then [r.to_table] else []) ++
    (if r.to_table = v then [r.from_table] else []))

/-- The nodes of the adjacency map: every table appearing as an endpoint of
some relationship (discovery order, first occurrence kept). -/
def graphNodes (rels : List ForeignKeyRelation) : List String :=
  dedupFirst (rels.flatMap (fun r => [r.from_table, r.to_table]))

/-- Membership of a table in the adjacency map (`start in graph`). -/
def inGraph (rels : List ForeignKeyRelation) (v : String) : Prop :=
  v ∈ graphNodes rels

instance (rels : List ForeignKeyRelation) (v : String) :
    Decidable (inGraph rels v) := by
  unfold inGraph; infer_instance

/-- The inner `for neighbor in graph[current]` loop of the BFS: scan the
neighbor list, returning the extended path on meeting `endT`, otherwise
marking unvisited neighbors visited and enqueueing them. -/
def visitNeighbors (endT : String) (path : List String) :
    List String → List String → List (String × List String) →
    Option (List String) × List String × List (String × List String)
  | [], visited, queue => (none, visited, queue)
  | n :: ns, visited, queue =>
    if n = endT then (some (path ++ [n]), visited, queue)
    else if n ∈ visited then visitNeighbors endT path ns visited queue
    else visitNeighbors endT path ns (visited ++ [n]) (queue ++ [(n, path ++ [n])])

/-- The fuelled BFS worklist loop (`while queue:`): pop the head, scan its
neighbors, stop on success or when the queue empties.  The fuel is a bound
on iterations; `find_shortest_join_path` supplies enough that it is never
exhausted (`bfsLoop_fuel` below). -/
def bfsLoop (adj : String → List String) (endT : String) :
    Nat → List (String × List String) → List String → Option (List String)
  | 0, _, _ => none
  | _ + 1, [], _ => none
  | fuel + 1, (current, path) :: rest, visited =>
    match visitNeighbors endT path (adj current) visited rest with
    | (some p, _, _) => some p
    | (none, visited', queue') => bfsLoop adj endT fuel queue' visited'

/-- BFS shortest join path between two tables (`find_shortest_join_path`). -/
def find_shortest_join_path (schema : DatabaseSchema) (start endT : String) :
    Option (List String) :=
  if start = endT then some [start]
  else
    let rels := schema.relationships
    if inGraph rels start ∧ inGraph rels endT then
      bfsLoop (neighbors rels) endT (2 * rels.length + 1) [(start, [start])] [start]
    else none

/-- Undirected adjacency relation derived from the relationships. -/
def Adj (rels : List ForeignKeyRelation) (a b : String) : Prop :=
  b ∈ neighbors rels a

instance (rels : List ForeignKeyRelation) (a b : String) :
    Decidable (Adj rels a b) := by
  unfold Adj; infer_instance

/-- A join path from `a` to `b`: a nonempty table sequence starting at `a`,
ending at `b`, with consecutive tables adjacent. -/
def IsJoinPath (rels : List ForeignKeyRelation) (a b : String)
    (p : List String) : Prop :=
  p.Chain' (Adj rels) ∧ p.head? = some a ∧ p.getLast? = some b

instance (rels : List ForeignKeyRelation) (a b : String) (p : List String) :
    Decidable (IsJoinPath rels a b p) := by
  unfold IsJoinPath; infer_instance

/-! ### Basic facts about the derived adjacency -/

theorem mem_dedupFirst_aux (l : List String) :
    ∀ acc x, x ∈ l.foldl (fun acc x => if x ∈ acc then acc else acc ++ [x]) acc ↔
      x ∈ acc ∨ x ∈ l := by
  induction l with
  | nil => simp
  | cons a l ih =>
    intro acc x
    simp only [List.foldl_cons]
    by_cases ha : a ∈ acc
    · rw [if_pos ha, ih]
      constructor
      · rintro (h | h)
        · exact Or.inl h
        · exact Or.inr (List.mem_cons_of_mem _ h)
      · rintro (h | h)
        · exact Or.inl h
        · rcases List.mem_cons.1 h with rfl | h
          · exact Or.inl ha
          · exact Or.inr h
    · rw [if_neg ha, ih]
      simp only [List.mem_append, List.mem_singleton, List.mem_cons]
      tauto

theorem mem_dedupFirst (l : List String) (x : String) :
    x ∈ dedupFirst l ↔ x ∈ l := by
  unfold dedupFirst
  rw [mem_dedupFirst_aux]
  simp

theorem nodup_dedupFirst_aux (l : List String) :
    ∀ acc, acc.Nodup →
      (l.foldl (fun acc x => if x ∈ acc then acc else acc ++ [x]) acc).Nodup := by
  induction l with
  | nil => intro acc h; simpa using h
  | cons a l ih =>
    intro acc hacc
    simp only [List.foldl_cons]
    by_cases ha : a ∈ acc
    · rw [if_pos ha]; exact ih acc hacc
    · rw [if_neg ha]
      refine ih _ ?_
      rw [List.nodup_append]
      refine ⟨hacc, List.nodup_singleton a, fun x hx hxa => ?_⟩
      rw [List.mem_singleton] at hxa
      exact ha (hxa ▸ hx)

theorem nodup_dedupFirst (l : List String) : (dedupFirst l).Nodup :=
  nodup_dedupFirst_aux l [] List.nodup_nil

theorem length_dedupFirst_aux (l : List String) :
    ∀ acc, (l.foldl (fun acc x => if x ∈ acc then acc else acc ++ [x]) acc).length ≤
      acc.length + l.length := by
  induction l with
  | nil => simp
  | cons a l ih =>
    intro acc
    simp only [List.foldl_cons]
    by_cases ha : a ∈ acc
    · rw [if_pos ha]
      calc _ ≤ acc.length + l.length := ih acc
        _ ≤ acc.length + (a :: l).length := by simp only [List.length_cons]; omega
    · rw [if_neg ha]
      calc _ ≤ (acc ++ [a]).length + l.length := ih _
        _ = acc.length + (a :: l).length := by
          simp only [List.length_append, List.length_cons, List.length_nil]
          omega

theorem length_dedupFirst (l : List String) : (dedupFirst l).length ≤ l.length := by
  simpa using length_dedupFirst_aux l []

theorem mem_neighbors (rels : List ForeignKeyRelation) (a b : String) :
    b ∈ neighbors rels a ↔
      ∃ r ∈ rels, (r.from_table = a ∧ r.to_table = b) ∨
        (r.to_table = a ∧ r.from_table = b) := by
  unfold neighbors
  simp only [List.mem_flatMap, List.mem_append]
  constructor
  · rintro ⟨r, hr, h | h⟩
    · by_cases hf : r.from_table = a
      · rw [if_pos hf] at h
        exact ⟨r, hr, Or.inl ⟨hf, (List.mem_singleton.1 h).symm⟩⟩
      · rw [if_neg hf] at h; simp at h
    · by_cases ht : r.to_table = a
      · rw [if_pos ht] at h
        exact ⟨r, hr, Or.inr ⟨ht, (List.mem_singleton.1 h).symm⟩⟩
      · rw [if_neg ht] at h; simp at h
  · rintro ⟨r, hr, ⟨hf, ht⟩ | ⟨ht, hf⟩⟩
    · exact ⟨r, hr, Or.inl (by rw [if_pos hf]; simp [ht])⟩
    · exact ⟨r, hr, Or.inr (by rw [if_pos ht]; simp [hf])⟩

theorem adj_symm {rels : List ForeignKeyRelation} {a b : String}
    (h : Adj rels a b) : Adj rels b a := by
  unfold Adj at h ⊢
  rw [mem_neighbors] at h ⊢
  rcases h with ⟨r, hr, ⟨h1, h2⟩ | ⟨h1, h2⟩⟩
  · exact ⟨r, hr, Or.inr ⟨h2, h1⟩⟩
  · exact ⟨r, hr, Or.inl ⟨h2, h1⟩⟩

theorem mem_graphNodes_of_adj {rels : List ForeignKeyRelation} {a b : String}
    (h : Adj rels a b) : a ∈ graphNodes rels ∧ b ∈ graphNodes rels := by
  unfold Adj at h
  rw [mem_neighbors] at h
  unfold graphNodes
  rw [mem_dedupFirst, mem_dedupFirst]
  rcases h with ⟨r, hr, ⟨h1, h2⟩ | ⟨h1, h2⟩⟩ <;>
    constructor <;> exact List.mem_flatMap.2 ⟨r, hr, by simp [h1, h2]⟩

theorem length_graphNodes (rels : List ForeignKeyRelation) :
    (graphNodes rels).length ≤ 2 * rels.length := by
  unfold graphNodes
  refine le_trans (length_dedupFirst _) (le_of_eq ?_)
  induction rels with
  | nil => simp
  | cons r rels ih =>
    simp only [List.flatMap_cons, List.length_append, List.length_cons, ih,
      List.length_nil, List.length_singleton]
    omega

/-! ### Specification of the neighbor scan -/

theorem visitNeighbors_some {endT : String} {path : List String} :
    ∀ {ns visited queue r v' q'},
      visitNeighbors endT path ns visited queue = (some r, v', q') →
      r = path ++ [endT] ∧ endT ∈ ns := by
  intro ns
  induction ns with
  | nil => intro visited queue r v' q' h; simp [visitNeighbors] at h
  | cons n ns ih =>
    intro visited queue r v' q' h
    unfold visitNeighbors at h
    by_cases hn : n = endT
    · rw [if_pos hn] at h
      obtain ⟨hr, _⟩ := Prod.mk.injEq .. ▸ h
      simp only [Option.some.injEq] at hr
      exact ⟨by rw [← hr, hn], by simp [hn]⟩
    · rw [if_neg hn] at h
      by_cases hv : n ∈ visited
      · rw [if_pos hv] at h
        obtain ⟨h1, h2⟩ := ih h
        exact ⟨h1, List.mem_cons_of_mem _ h2⟩
      · rw [if_neg hv] at h
        obtain ⟨h1, h2⟩ := ih h
        exact ⟨h1, List.mem_cons_of_mem _ h2⟩

theorem visitNeighbors_none {endT : String} {path : List String} :
    ∀ {ns visited queue v' q'},
      visitNeighbors endT path ns visited queue = (none, v', q') →
      ∃ news : List String,
        v' = visited ++ news ∧
        q' = queue ++ news.map (fun n => (n, path ++ [n])) ∧
        news.Nodup ∧
        (∀ n ∈ news, n ∈ ns ∧ n ∉ visited) ∧
        (∀ n ∈ ns, n ≠ endT ∧ (n ∈ visited ∨ n ∈ news)) := by
  intro ns
  induction ns with
  | nil =>
    intro visited queue v' q' h
    simp only [visitNeighbors, Prod.mk.injEq] at h
    exact ⟨[], by simp [← h.2.1, ← h.2.2]⟩
  | cons n ns ih =>
    intro visited queue v' q' h
    unfold visitNeighbors at h
    by_cases hn : n = endT
    · rw [if_pos hn] at h; simp at h
    · rw [if_neg hn] at h
      by_cases hv : n ∈ visited
      · rw [if_pos hv] at h
        obtain ⟨news, h1, h2, h3, h4, h5⟩ := ih h
        refine ⟨news, h1, h2, h3, ?_, ?_⟩
        · exact fun m hm => ⟨List.mem_cons_of_mem _ (h4 m hm).1, (h4 m hm).2⟩
        · intro m hm
          rcases List.mem_cons.1 hm with rfl | hm'
          · exact ⟨hn, Or.inl hv⟩
          · exact ⟨(h5 m hm').1, (h5 m hm').2⟩
      · rw [if_neg hv] at h
        obtain ⟨news, h1, h2, h3, h4, h5⟩ := ih h
        refine ⟨n :: news, ?_, ?_, ?_, ?_, ?_⟩
        · rw [h1, List.append_assoc, List.singleton_append]
        · rw [h2, List.map_cons, List.append_assoc, List.singleton_append]
        · refine List.nodup_cons.2 ⟨fun hc => ?_, h3⟩
          exact ((h4 n hc).2) (List.mem_append.2 (Or.inr (List.mem_singleton.2 rfl)))
        · intro m hm
          rcases List.mem_cons.1 hm with rfl | hm'
          · exact ⟨List.mem_cons_self _ _, hv⟩
          · refine ⟨List.mem_cons_of_mem _ (h4 m hm').1, fun hc => ?_⟩
            exact (h4 m hm').2 (List.mem_append.2 (Or.inl hc))
        · intro m hm
          rcases List.mem_cons.1 hm with rfl | hm'
          · exact ⟨hn, Or.inr (List.mem_cons_self _ _)⟩
          · refine ⟨(h5 m hm').1, ?_⟩
            rcases (h5 m hm').2 with hmv | hmn
            · rcases List.mem_append.1 hmv with hmv' | hmv'
              · exact Or.inl hmv'
              · exact Or.inr (List.mem_cons.2 (Or.inl (List.mem_singleton.1 hmv')))
            · exact Or.inr (List.mem_cons_of_mem _ hmn)

/-! ### Join-path utilities -/

theorem isJoinPath_singleton (rels : List ForeignKeyRelation) (a : String) :
    IsJoinPath rels a a [a] := by
  refine ⟨List.chain'_singleton a, rfl, rfl⟩

theorem isJoinPath_length_pos {rels : List ForeignKeyRelation} {a b : String}
    {p : List String} (h : IsJoinPath rels a b p) : 1 ≤ p.length := by
  rcases p with _ | ⟨x, t⟩
  · simp [IsJoinPath] at h
  · simp

theorem isJoinPath_snoc {rels : List ForeignKeyRelation} {a b x : String}
    {p : List String} (h : IsJoinPath rels a b p) (hadj : Adj rels b x) :
    IsJoinPath rels a x (p ++ [x]) := by
  obtain ⟨hc, hh, hl⟩ := h
  refine ⟨?_, ?_, ?_⟩
  · rw [List.chain'_append]
    refine ⟨hc, List.chain'_singleton x, ?_⟩
    intro y hy z hz
    rw [hl] at hy
    simp only [Option.mem_def, Option.some.injEq] at hy
    simp only [List.head?_cons, Option.mem_def, Option.some.injEq] at hz
    rw [← hy, ← hz] at *
    exact hadj
  · rw [List.head?_append, hh]; rfl
  · rw [List.getLast?_append]; rfl

/-- Walking a join path from inside the visited set to outside it, one must
cross the frontier: the path splits at an edge whose source is visited and
whose target is not, and the source-side prefix is itself a join path. -/
theorem exists_exit {rels : List ForeignKeyRelation} (V : List String) :
    ∀ (q : List String) (a z : String), q.Chain' (Adj rels) →
      q.head? = some a → q.getLast? = some z → a ∈ V → z ∉ V →
      ∃ (p1 : List String) (v w : String) (p2 : List String),
        q = (p1 ++ [v]) ++ w :: p2 ∧ v ∈ V ∧ w ∉ V ∧ Adj rels v w ∧
        IsJoinPath rels a v (p1 ++ [v]) := by
  intro q
  induction q with
  | nil => intro a z _ hh _ _ _; simp at hh
  | cons x t ih =>
    intro a z hc hh hl ha hz
    simp only [List.head?_cons, Option.some.injEq] at hh
    subst hh
    rcases t with _ | ⟨y, t'⟩
    · simp only [List.getLast?_singleton, Option.some.injEq] at hl
      exact absurd (hl ▸ ha) hz
    · obtain ⟨hxy, hct⟩ := List.chain'_cons.1 hc
      by_cases hyV : y ∈ V
      · obtain ⟨p1, v, w, p2, heq, hv, hw, hadj, hpath⟩ :=
          ih y z hct rfl (by rw [← List.getLast?_cons_cons, hl]) hyV hz
        refine ⟨x :: p1, v, w, p2, ?_, hv, hw, hadj, ?_⟩
        · rw [List.cons_append, List.cons_append, ← heq]
        · obtain ⟨hc', hh', hl'⟩ := hpath
          refine ⟨?_, ?_, ?_⟩
          · rw [List.cons_append]
            refine List.chain'_cons'.2 ⟨?_, hc'⟩
            intro b hb
            rw [hh'] at hb
            simp only [Option.mem_def, Option.some.injEq] at hb
            exact hb ▸ hxy
          · rw [List.cons_append]; rfl
          · rw [List.cons_append, ← List.cons_append]
            exact List.getLast?_concat _
      · refine ⟨[], x, y, t', by simp, ha, hyV, hxy, isJoinPath_singleton rels x⟩

/-! ### The BFS loop invariant -/

/-- Invariant of the BFS worklist loop of `find_shortest_join_path`, for a
fixed search from `start` to `endT` (with `start ≠ endT` implied by
`end_not_v` and `start_v`): queue entries carry valid shortest-so-far paths
in nondecreasing length order, the visited set contains the queue nodes,
never contains `endT`, and is adjacency-closed at already-processed nodes. -/
structure BfsInv (rels : List ForeignKeyRelation) (start endT : String)
    (Q : List (String × List String)) (V : List String) : Prop where
  path_ok : ∀ e ∈ Q, IsJoinPath rels start e.1 e.2
  sorted : Q.Pairwise (fun e e' => e.2.length ≤ e'.2.length)
  spread : ∀ e ∈ Q, ∀ e' ∈ Q, e.2.length ≤ e'.2.length + 1
  q_sub_v : ∀ e ∈ Q, e.1 ∈ V
  start_v : start ∈ V
  end_not_v : endT ∉ V
  closed : ∀ v ∈ V, (∀ e ∈ Q, e.1 ≠ v) → ∀ w ∈ neighbors rels v, w ∈ V
  minimal : ∀ e ∈ Q, ∀ q, IsJoinPath rels start e.1 q → e.2.length ≤ q.length
  v_nodup : V.Nodup
  v_nodes : ∀ v ∈ V, v ∈ graphNodes rels

theorem bfs_no_path_of_empty {rels : List ForeignKeyRelation}
    {start endT : String} {V : List String}
    (inv : BfsInv rels start endT [] V) :
    ∀ q, ¬ IsJoinPath rels start endT q := by
  intro q hq
  obtain ⟨hc, hh, hl⟩ := hq
  obtain ⟨p1, v, w, p2, _, hv, hw, hadj, _⟩ :=
    exists_exit V q start endT hc hh hl inv.start_v inv.end_not_v
  exact hw (inv.closed v hv (by simp) w hadj)

/-- Any join path reaching a still-unvisited node is at least one step
longer than the path stored at the queue head. -/
theorem bfs_lower_bound {rels : List ForeignKeyRelation}
    {start endT : String} {c : String} {p : List String}
    {rest : List (String × List String)} {V : List String}
    (inv : BfsInv rels start endT ((c, p) :: rest) V) :
    ∀ n ∉ V, ∀ q, IsJoinPath rels start n q → p.length + 1 ≤ q.length := by
  intro n hn q hq
  obtain ⟨hc, hh, hl⟩ := hq
  obtain ⟨p1, v, w, p2, heq, hv, hw, hadj, hpath⟩ :=
    exists_exit V q start n hc hh hl inv.start_v hn
  have hvq : ∃ e ∈ (c, p) :: rest, e.1 = v := by
    by_contra hno
    push_neg at hno
    exact hw (inv.closed v hv hno w hadj)
  obtain ⟨e, he, hev⟩ := hvq
  have hmin : e.2.length ≤ p1.length + 1 := by
    have := inv.minimal e he (p1 ++ [v]) (hev ▸ hpath)
    simpa using this
  have hsort : p.length ≤ e.2.length := by
    rcases List.mem_cons.1 he with rfl | htail
    · exact le_refl _
    · exact (List.pairwise_cons.1 inv.sorted).1 e htail
  have hqlen : p1.length + 1 + 1 ≤ q.length := by
    rw [heq]
    simp only [List.length_append, List.length_cons]
    omega
  omega

/-- One BFS iteration preserves the invariant and converts one unit of fuel
into one processed queue entry. -/
theorem bfsInv_step {rels : List ForeignKeyRelation} {start endT c : String}
    {p : List String} {rest : List (String × List String)}
    {V visited' : List String} {queue' : List (String × List String)}
    (inv : BfsInv rels start endT ((c, p) :: rest) V)
    (hscan : visitNeighbors endT p (neighbors rels c) V rest =
      (none, visited', queue')) :
    BfsInv rels start endT queue' visited' ∧
    ∃ k, visited'.length = V.length + k ∧
      queue'.length + 1 = rest.length + 1 + k := by
  obtain ⟨news, h1, h2, h3, h4, h5⟩ := visitNeighbors_none hscan
  have hcp : (c, p) ∈ (c, p) :: rest := List.mem_cons_self _ _
  have hppath : IsJoinPath rels start c p := inv.path_ok _ hcp
  have hsor1 : ∀ e ∈ rest, p.length ≤ e.2.length :=
    (List.pairwise_cons.1 inv.sorted).1
  have hsor2 : rest.Pairwise (fun e e' => e.2.length ≤ e'.2.length) :=
    (List.pairwise_cons.1 inv.sorted).2
  have hmapmem : ∀ e ∈ news.map (fun n => (n, p ++ [n])),
      ∃ n ∈ news, e = (n, p ++ [n]) := by
    intro e he
    obtain ⟨n, hn, rfl⟩ := List.mem_map.1 he
    exact ⟨n, hn, rfl⟩
  refine ⟨⟨?_, ?_, ?_, ?_, ?_, ?_, ?_, ?_, ?_, ?_⟩, ?_⟩
  · -- path_ok
    intro e he
    rw [h2] at he
    rcases List.mem_append.1 he with he' | he'
    · exact inv.path_ok e (List.mem_cons_of_mem _ he')
    · obtain ⟨n, hn, rfl⟩ := hmapmem e he'
      exact isJoinPath_snoc hppath ((h4 n hn).1)
  · -- sorted
    rw [h2, List.pairwise_append]
    refine ⟨hsor2, ?_, ?_⟩
    · rw [List.pairwise_map]
      exact h3.imp (fun _ => by simp)
    · intro e he e' he'
      obtain ⟨n, hn, rfl⟩ := hmapmem e' he'
      have := inv.spread e (List.mem_cons_of_mem _ he) (c, p) hcp
      simpa using this
  · -- spread
    intro e he e' he'
    rw [h2] at he he'
    rcases List.mem_append.1 he with h | h <;> rcases List.mem_append.1 he' with h' | h'
    · exact inv.spread e (List.mem_cons_of_mem _ h) e' (List.mem_cons_of_mem _ h')
    · obtain ⟨n, hn, rfl⟩ := hmapmem e' h'
      have hb : e.2.length ≤ p.length + 1 :=
        inv.spread e (List.mem_cons_of_mem _ h) (c, p) hcp
      show e.2.length ≤ (p ++ [n]).length + 1
      simp only [List.length_append, List.length_cons, List.length_nil]
      omega
    · obtain ⟨n, hn, rfl⟩ := hmapmem e h
      have hb : p.length ≤ e'.2.length := hsor1 e' h'
      show (p ++ [n]).length ≤ e'.2.length + 1
      simp only [List.length_append, List.length_cons, List.length_nil]
      omega
    · obtain ⟨n, hn, rfl⟩ := hmapmem e h
      obtain ⟨m, hm, rfl⟩ := hmapmem e' h'
      simp
  · -- q_sub_v
    intro e he
    rw [h2] at he
    rw [h1]
    rcases List.mem_append.1 he with h | h
    · exact List.mem_append.2 (Or.inl (inv.q_sub_v e (List.mem_cons_of_mem _ h)))
    · obtain ⟨n, hn, rfl⟩ := hmapmem e h
      exact List.mem_append.2 (Or.inr hn)
  · -- start_v
    rw [h1]; exact List.mem_append.2 (Or.inl inv.start_v)
  · -- end_not_v
    rw [h1]
    intro hend
    rcases List.mem_append.1 hend with h | h
    · exact inv.end_not_v h
    · exact ((h5 endT ((h4 endT h).1)).1) rfl
  · -- closed
    intro v hv hnot w hw
    rw [h1] at hv ⊢
    rcases List.mem_append.1 hv with hvV | hvnews
    · by_cases hvc : v = c
      · subst hvc
        rcases (h5 w hw).2 with h | h
        · exact List.mem_append.2 (Or.inl h)
        · exact List.mem_append.2 (Or.inr h)
      · have hold : ∀ e ∈ (c, p) :: rest, e.1 ≠ v := by
          intro e he
          rcases List.mem_cons.1 he with rfl | htail
          · exact fun hc' => hvc hc'.symm
          · refine hnot e ?_
            rw [h2]
            exact List.mem_append.2 (Or.inl htail)
        exact List.mem_append.2 (Or.inl (inv.closed v hvV hold w hw))
    · exfalso
      refine hnot (v, p ++ [v]) ?_ rfl
      rw [h2]
      exact List.mem_append.2 (Or.inr (List.mem_map_of_mem _ hvnews))
  · -- minimal
    intro e he q hq
    rw [h2] at he
    rcases List.mem_append.1 he with h | h
    · exact inv.minimal e (List.mem_cons_of_mem _ h) q hq
    · obtain ⟨n, hn, rfl⟩ := hmapmem e h
      have := bfs_lower_bound inv n ((h4 n hn).2) q hq
      simpa using this
  · -- v_nodup
    rw [h1, List.nodup_append]
    exact ⟨inv.v_nodup, h3, fun x hx hxn => (h4 x hxn).2 hx⟩
  · -- v_nodes
    intro v hv
    rw [h1] at hv
    rcases List.mem_append.1 hv with h | h
    · exact inv.v_nodes v h
    · exact (mem_graphNodes_of_adj ((h4 v h).1)).2
  · -- counting
    refine ⟨news.length, ?_, ?_⟩
    · rw [h1, List.length_append]
    · rw [h2, List.length_append, List.length_map]
      omega

/-- Correctness of the fuelled BFS loop: given the invariant and enough
fuel, a returned path is a shortest join path from `start` to `endT`, and
a `none` result means no join path exists at all. -/
theorem bfsLoop_correct (rels : List ForeignKeyRelation) (start endT : String) :
    ∀ (fuel : Nat) (Q : List (String × List String)) (V : List String),
      BfsInv rels start endT Q V →
      Q.length + (graphNodes rels).length ≤ fuel + V.length →
      (∀ p, bfsLoop (neighbors rels) endT fuel Q V = some p →
        IsJoinPath rels start endT p ∧
        ∀ q, IsJoinPath rels start endT q → p.length ≤ q.length) ∧
      (bfsLoop (neighbors rels) endT fuel Q V = none →
        ∀ q, ¬ IsJoinPath rels start endT q) := by
  intro fuel
  induction fuel with
  | zero =>
    intro Q V inv hfuel
    have hVN : V.length ≤ (graphNodes rels).length :=
      (List.subperm_of_subset inv.v_nodup (fun v hv => inv.v_nodes v hv)).length_le
    have hQ : Q = [] := by
      cases Q with
      | nil => rfl
      | cons e Q' =>
        exfalso
        simp only [List.length_cons] at hfuel
        omega
    subst hQ
    exact ⟨fun p hp => by simp [bfsLoop] at hp, fun _ => bfs_no_path_of_empty inv⟩
  | succ fuel ih =>
    intro Q V inv hfuel
    cases Q with
    | nil =>
      exact ⟨fun p hp => by simp [bfsLoop] at hp, fun _ => bfs_no_path_of_empty inv⟩
    | cons e rest =>
      obtain ⟨c, p⟩ := e
      rcases hscan : visitNeighbors endT p (neighbors rels c) V rest with ⟨o, v', q'⟩
      cases o with
      | some r =>
        have hres : bfsLoop (neighbors rels) endT (fuel + 1) ((c, p) :: rest) V =
            some r := by
          simp [bfsLoop, hscan]
        obtain ⟨hr, hadj⟩ := visitNeighbors_some hscan
        subst hr
        have hsound : IsJoinPath rels start endT (p ++ [endT]) :=
          isJoinPath_snoc (inv.path_ok (c, p) (List.mem_cons_self _ _)) hadj
        refine ⟨fun p' hp' => ?_, fun hn => ?_⟩
        · rw [hres] at hp'
          have hp'' : p ++ [endT] = p' := Option.some.inj hp'
          subst hp''
          refine ⟨hsound, fun q hq => ?_⟩
          have := bfs_lower_bound inv endT inv.end_not_v q hq
          simp only [List.length_append, List.length_cons, List.length_nil]
          omega
        · rw [hres] at hn
          simp at hn
      | none =>
        have hres : bfsLoop (neighbors rels) endT (fuel + 1) ((c, p) :: rest) V =
            bfsLoop (neighbors rels) endT fuel q' v' := by
          simp [bfsLoop, hscan]
        obtain ⟨inv', k, hk1, hk2⟩ := bfsInv_step inv hscan
        have hfuel' : q'.length + (graphNodes rels).length ≤ fuel + v'.length := by
          simp only [List.length_cons] at hfuel
          omega
        rw [hres]
        exact ih q' v' inv' hfuel'

theorem getLast_mem_graphNodes {rels : List ForeignKeyRelation} :
    ∀ (q : List String) (z : String), q.Chain' (Adj rels) →
      q.getLast? = some z → 2 ≤ q.length → z ∈ graphNodes rels := by
  intro q
  induction q with
  | nil => intro z _ _ h; simp at h
  | cons x t ih =>
    intro z hc hl hlen
    cases t with
    | nil => simp at hlen
    | cons y t' =>
      obtain ⟨hxy, hct⟩ := List.chain'_cons.1 hc
      cases t' with
      | nil =>
        simp only [List.getLast?_cons_cons, List.getLast?_singleton,
          Option.some.injEq] at hl
        exact hl ▸ (mem_graphNodes_of_adj hxy).2
      | cons w t'' =>
        refine ih z hct ?_ (by simp)
        rw [← List.getLast?_cons_cons]
        exact hl

/-- A join path between two distinct tables forces both endpoints to occur
in the relationship graph. -/
theorem isJoinPath_endpoints {rels : List ForeignKeyRelation}
    {a z : String} {q : List String} (h : IsJoinPath rels a z q) (hne : a ≠ z) :
    inGraph rels a ∧ inGraph rels z := by
  obtain ⟨hc, hh, hl⟩ := h
  cases q with
  | nil => simp at hh
  | cons x t =>
    simp only [List.head?_cons, Option.some.injEq] at hh
    subst hh
    cases t with
    | nil =>
      simp only [List.getLast?_singleton, Option.some.injEq] at hl
      exact absurd hl hne
    | cons y t' =>
      obtain ⟨hxy, _⟩ := List.chain'_cons.1 hc
      refine ⟨(mem_graphNodes_of_adj hxy).1, ?_⟩
      exact getLast_mem_graphNodes (x :: y :: t') z hc hl (by simp)

/-- Example schema for the BFS scenario of C1: the undirected graph
`A-B-C` plus `A-D-C` (two equal-length two-hop routes). -/
def bfsExampleSchema : DatabaseSchema :=
  { database_name := "example", database_type := "sqlite", tables := [],
    relationships :=
      [⟨"A", "b_id", "B", "id", none⟩, ⟨"B", "c_id", "C", "id", none⟩,
       ⟨"A", "d_id", "D", "id", none⟩, ⟨"D", "c_id", "C", "id", none⟩],
    total_tables := 0, extracted_at := "2024-01-01T00:00:00" }

/-- C1: `find_shortest_join_path` performs BFS over the undirected
adjacency derived from `schema.relationships` and returns a path with the
fewest edges beginning at `start` and ending at `endT`; it returns
`[start]` when `start = endT`, and `none` when (for distinct endpoints)
either endpoint is missing from the adjacency or no connecting path
exists.  In particular, on the graph `A-B-C` plus `A-D-C` the query
`(A, C)` returns a 3-node path, `(A, A)` returns `[A]`, and `(A, Z)` for
an unconnected `Z` returns `none`. -/
theorem C1_find_shortest_join_path_bfs :
    (∀ (schema : DatabaseSchema) (start endT : String),
      (start = endT → find_shortest_join_path schema start endT = some [start]) ∧
      (start ≠ endT →
        (¬ inGraph schema.relationships start ∨ ¬ inGraph schema.relationships endT) →
        find_shortest_join_path schema start endT = none) ∧
      (∀ p, find_shortest_join_path schema start endT = some p →
        IsJoinPath schema.relationships start endT p ∧
        ∀ q, IsJoinPath schema.relationships start endT q → p.length ≤ q.length) ∧
      (find_shortest_join_path schema start endT = none →
        ∀ q, ¬ IsJoinPath schema.relationships start endT q)) ∧
    (∃ p, find_shortest_join_path bfsExampleSchema "A" "C" = some p ∧
      p.length = 3) ∧
    find_shortest_join_path bfsExampleSchema "A" "A" = some ["A"] ∧
    find_shortest_join_path bfsExampleSchema "A" "Z" = none := by
  refine ⟨?_, ⟨["A", "B", "C"], by decide, by decide⟩, by decide, by decide⟩
  intro schema start endT
  have hinv : ∀ (hne : start ≠ endT)
      (hg : inGraph schema.relationships start ∧ inGraph schema.relationships endT),
      BfsInv schema.relationships start endT [(start, [start])] [start] := by
    intro hne hg
    refine ⟨?_, ?_, ?_, ?_, ?_, ?_, ?_, ?_, ?_, ?_⟩
    · intro e he
      rw [List.mem_singleton] at he
      subst he
      exact isJoinPath_singleton _ start
    · exact List.pairwise_singleton _ _
    · intro e he e' he'
      rw [List.mem_singleton] at he he'
      subst he; subst he'
      omega
    · intro e he
      rw [List.mem_singleton] at he
      subst he
      exact List.mem_singleton.2 rfl
    · exact List.mem_singleton.2 rfl
    · intro hcon
      exact hne (List.mem_singleton.1 hcon).symm
    · intro v hv hnone
      exfalso
      rw [List.mem_singleton] at hv
      exact hnone (start, [start]) (List.mem_singleton.2 rfl) (by simp [hv])
    · intro e he q hq
      rw [List.mem_singleton] at he
      subst he
      exact isJoinPath_length_pos hq
    · exact List.nodup_singleton _
    · intro v hv
      rw [List.mem_singleton] at hv
      exact hv ▸ hg.1
  refine ⟨?_, ?_, ?_, ?_⟩
  · intro h
    subst h
    simp [find_shortest_join_path]
  · intro hne hmiss
    have hg : ¬ (inGraph schema.relationships start ∧ inGraph schema.relationships endT) := by
      tauto
    simp only [find_shortest_join_path, if_neg hne]
    rw [if_neg hg]
  · intro p hp
    by_cases hse : start = endT
    · subst hse
      have heq : find_shortest_join_path schema start start = some [start] := by
        simp [find_shortest_join_path]
      rw [heq] at hp
      obtain rfl := Option.some.inj hp
      exact ⟨isJoinPath_singleton _ start, fun q hq => isJoinPath_length_pos hq⟩
    · by_cases hg : inGraph schema.relationships start ∧ inGraph schema.relationships endT
      · simp only [find_shortest_join_path, if_neg hse, if_pos hg] at hp
        have hfuel : ([(start, [start])] : List (String × List String)).length +
            (graphNodes schema.relationships).length ≤
            (2 * schema.relationships.length + 1) + ([start] : List String).length := by
          have := length_graphNodes schema.relationships
          simp only [List.length_singleton]
          omega
        exact (bfsLoop_correct schema.relationships start endT _ _ _
          (hinv hse hg) hfuel).1 p hp
      · simp only [find_shortest_join_path, if_neg hse] at hp
        rw [if_neg hg] at hp
        simp at hp
  · intro hp q hq
    by_cases hse : start = endT
    · subst hse
      simp [find_shortest_join_path] at hp
    · by_cases hg : inGraph schema.relationships start ∧ inGraph schema.relationships endT
      · simp only [find_shortest_join_path, if_neg hse, if_pos hg] at hp
        have hfuel : ([(start, [start])] : List (String × List String)).length +
            (graphNodes schema.relationships).length ≤
            (2 * schema.relationships.length + 1) + ([start] : List String).length := by
          have := length_graphNodes schema.relationships
          simp only [List.length_singleton]
          omega
        exact (bfsLoop_correct schema.relationships start endT _ _ _
          (hinv hse hg) hfuel).2 hp q hq
      · exact hg ⟨(isJoinPath_endpoints hq hse).1, (isJoinPath_endpoints hq hse).2⟩

/-- Witness for C1: the general theorem applied at the concrete example
schema, discharging the hypotheses on a concrete shortest-path query. -/
theorem C1_witness :
    find_shortest_join_path bfsExampleSchema "A" "C" = some ["A", "B", "C"] ∧
    IsJoinPath bfsExampleSchema.relationships "A" "C" ["A", "B", "C"] ∧
    ∀ q, IsJoinPath bfsExampleSchema.relationships "A" "C" q → 3 ≤ q.length := by
  have h := (C1_find_shortest_join_path_bfs.1 bfsExampleSchema "A" "C").2.2.1
    ["A", "B", "C"] (by decide)
  exact ⟨by decide, h.1, fun q hq => h.2 q hq⟩

/-! ## Cache service (`app/services/cache_service.py`)

Wall-clock reads (`time.time()`) are passed in as explicit `Nat`
timestamps; the Python `dict` of entries becomes an insertion-ordered
association list; the `threading.Lock` has no observable effect on the
sequential semantics and is dropped. -/

/-- A single cache entry with metadata (`CacheEntry`). -/
structure CacheEntry (α : Type) where
  key : String
  value : α
  created_at : Nat
  last_accessed : Nat
  ttl_seconds : Nat
  access_count : Nat
deriving DecidableEq, Repr

/-- `CacheEntry.__init__`: both timestamps start at the construction time,
the access counter at zero. -/
def CacheEntry.make {α : Type} (now : Nat) (key : String) (value : α)
    (ttl_seconds : Nat) : CacheEntry α :=
  ⟨key, value, now, now, ttl_seconds, 0⟩

/-- `CacheEntry.is_expired`: `time.time() - created_at > ttl_seconds`
(truncated `Nat` subtraction agrees with the real-valued original for
every nonnegative TTL). -/
def CacheEntry.is_expired {α : Type} (e : CacheEntry α) (now : Nat) : Bool :=
  decide (now - e.created_at > e.ttl_seconds)

/-- `CacheEntry.access`: touch the last-access time, bump the counter. -/
def CacheEntry.access {α : Type} (e : CacheEntry α) (now : Nat) : CacheEntry α :=
  { e with last_accessed := now, access_count := e.access_count + 1 }

/-- Python `dict.get`: the (unique) binding of `key`, if any. -/
def dictGet {β : Type} (d : List (String × β)) (key : String) : Option β :=
  (d.find? (fun kv => kv.1 == key)).map (fun kv => kv.2)

/-- Python `dict` assignment: replace in place (keeping insertion order) if
the key is bound, else append. -/
def dictSet {β : Type} (d : List (String × β)) (key : String) (v : β) :
    List (String × β) :=
  if d.any (fun kv => kv.1 == key) then
    d.map (fun kv => if kv.1 == key then (kv.1, v) else kv)
  else d ++ [(key, v)]

/-- Python `del d[key]`. -/
def dictDelete {β : Type} (d : List (String × β)) (key : String) :
    List (String × β) :=
  d.filter (fun kv => kv.1 != key)

/-- The cache service state (`CacheService.__init__`): entry map, size
bound, sweep interval and last sweep time. -/
structure CacheService (α : Type) where
  cache : List (String × CacheEntry α)
  max_size : Nat
  cleanup_interval : Nat
  last_cleanup : Nat
deriving DecidableEq, Repr

/-- A fresh cache service (defaults `max_size=100`,
`cleanup_interval=300`). -/
def CacheService.make (α : Type) (now : Nat) (max_size : Nat := 100)
    (cleanup_interval : Nat := 300) : CacheService α :=
  ⟨[], max_size, cleanup_interval, now⟩

/-- `CacheService._cleanup_expired`: at most once per `cleanup_interval`,
drop every expired entry and record the sweep time. -/
def CacheService.cleanup_expired {α : Type} (c : CacheService α) (now : Nat) :
    CacheService α :=
  if now - c.last_cleanup < c.cleanup_interval then c
  else
    { c with cache := c.cache.filter (fun kv => !(kv.2.is_expired now)),
             last_cleanup := now }

/-- `CacheService._evict_if_needed`: when the store holds at least
`max_size` entries, sort them by last-access time ascending (stably, as
Python's `sorted`) and delete the keys of the oldest
`max(1, len // 5)`. -/
def CacheService.evict_if_needed {α : Type} (c : CacheService α) :
    CacheService α :=
  if c.cache.length < c.max_size then c
  else
    let sorted_entries := pySorted
      (fun kv kv' => decide (kv.2.last_accessed ≤ kv'.2.last_accessed)) c.cache
    let evict_count := max 1 (sorted_entries.length / 5)
    let evicted := (sorted_entries.take evict_count).map (fun kv => kv.1)
    { c with cache := c.cache.filter (fun kv => decide (kv.1 ∉ evicted)) }

/-- `CacheService.get`: sweep, then return a live value (touching its
access metadata), deleting the entry instead when it is expired. -/
def CacheService.get {α : Type} (c : CacheService α) (now : Nat)
    (key : String) : Option α × CacheService α :=
  let c1 := c.cleanup_expired now
  match dictGet c1.cache key with
  | none => (none, c1)
  | some entry =>
    if entry.is_expired now then
      (none, { c1 with cache := dictDelete c1.cache key })
    else
      (some entry.value, { c1 with cache := dictSet c1.cache key (entry.access now) })

/-- `CacheService.set`: sweep, evict if at capacity, then insert/replace
the entry; always reports success. -/
def CacheService.set {α : Type} (c : CacheService α) (now : Nat)
    (key : String) (value : α) (ttl_seconds : Nat := 1800) :
    Bool × CacheService α :=
  let c1 := c.cleanup_expired now
  let c2 := c1.evict_if_needed
  (true, { c2 with cache := dictSet c2.cache key (CacheEntry.make now key value ttl_seconds) })

/-- `CacheService.delete`: remove one entry if present. -/
def CacheService.delete {α : Type} (c : CacheService α) (key : String) :
    Bool × CacheService α :=
  if c.cache.any (fun kv => kv.1 == key) then
    (true, { c with cache := dictDelete c.cache key })
  else (false, c)

/-- `CacheService.clear`: drop everything, or everything whose key starts
with the given prefix (`str.startswith` is prefix-of on the character
sequence); returns the number of removed entries. -/
def CacheService.clear {α : Type} (c : CacheService α) (pfx : Option String) :
    Nat × CacheService α :=
  match pfx with
  | none => (c.cache.length, { c with cache := [] })
  | some p =>
    let keys_to_delete :=
      (c.cache.map (fun kv => kv.1)).filter (fun k => p.data.isPrefixOf k.data)
    (keys_to_delete.length,
     { c with cache := c.cache.filter (fun kv => !(p.data.isPrefixOf kv.1.data)) })

/-- `CacheService.exists`: sweep, then report whether a non-expired entry
is present — without touching access metadata. -/
def CacheService.exists {α : Type} (c : CacheService α) (now : Nat)
    (key : String) : Bool × CacheService α :=
  let c1 := c.cleanup_expired now
  match dictGet c1.cache key with
  | none => (false, c1)
  | some entry => (!(entry.is_expired now), c1)

/-- One cache operation together with the wall-clock time at which it is
issued (claim C2 quantifies over arbitrary such sequences). -/
inductive CacheOp (α : Type) where
  | opGet (now : Nat) (key : String)
  | opSet (now : Nat) (key : String) (value : α) (ttl_seconds : Nat)
  | opDelete (key : String)
  | opClear (pfx : Option String)

/-- Apply one operation, keeping only the state. -/
def applyOp {α : Type} (c : CacheService α) : CacheOp α → CacheService α
  | CacheOp.opGet now key => (c.get now key).2
  | CacheOp.opSet now key v ttl => (c.set now key v ttl).2
  | CacheOp.opDelete key => (c.delete key).2
  | CacheOp.opClear pfx => (c.clear pfx).2

/-- Run a sequence of cache operations from a starting state. -/
def runOps {α : Type} (c : CacheService α) (ops : List (CacheOp α)) :
    CacheService α :=
  ops.foldl applyOp c

/-! ### Properties of the stable sort -/

theorem insertPy_perm {α : Type} (le : α → α → Bool) (x : α) :
    ∀ l : List α, (insertPy le x l).Perm (x :: l) := by
  intro l
  induction l with
  | nil => simp [insertPy]
  | cons y ys ih =>
    unfold insertPy
    by_cases h : le y x
    · rw [if_pos h]
      exact (ih.cons y).trans (List.Perm.swap x y ys)
    · rw [if_neg h]

theorem pySorted_perm_aux {α : Type} (le : α → α → Bool) :
    ∀ (l acc : List α),
      (l.foldl (fun acc x => insertPy le x acc) acc).Perm (acc ++ l) := by
  intro l
  induction l with
  | nil => intro acc; simp
  | cons a l ih =>
    intro acc
    simp only [List.foldl_cons]
    refine (ih (insertPy le a acc)).trans ?_
    refine (List.Perm.append_right l (insertPy_perm le a acc)).trans ?_
    exact List.perm_middle.symm

theorem pySorted_perm {α : Type} (le : α → α → Bool) (l : List α) :
    (pySorted le l).Perm l := by
  simpa using pySorted_perm_aux le l []

theorem insertPy_sorted {α : Type} {le : α → α → Bool}
    (htot : ∀ a b, le a b = true ∨ le b a = true)
    (htrans : ∀ a b c, le a b = true → le b c = true → le a c = true) (x : α) :
    ∀ {l : List α}, l.Pairwise (fun a b => le a b = true) →
      (insertPy le x l).Pairwise (fun a b => le a b = true) := by
  intro l
  induction l with
  | nil => intro _; simp [insertPy]
  | cons y ys ih =>
    intro h
    obtain ⟨hy, hys⟩ := List.pairwise_cons.1 h
    unfold insertPy
    by_cases hle : le y x
    · rw [if_pos hle]
      refine List.pairwise_cons.2 ⟨?_, ih hys⟩
      intro z hz
      rcases List.mem_cons.1 ((insertPy_perm le x ys).mem_iff.1 hz) with rfl | hzys
      · exact hle
      · exact hy z hzys
    · rw [if_neg hle]
      have hxy : le x y = true := (htot x y).resolve_right (by simpa using hle)
      refine List.pairwise_cons.2 ⟨?_, h⟩
      intro z hz
      rcases List.mem_cons.1 hz with rfl | hzys
      · exact hxy
      · exact htrans x y z hxy (hy z hzys)

theorem pySorted_sorted_aux {α : Type} {le : α → α → Bool}
    (htot : ∀ a b, le a b = true ∨ le b a = true)
    (htrans : ∀ a b c, le a b = true → le b c = true → le a c = true) :
    ∀ (l acc : List α), acc.Pairwise (fun a b => le a b = true) →
      (l.foldl (fun acc x => insertPy le x acc) acc).Pairwise
        (fun a b => le a b = true) := by
  intro l
  induction l with
  | nil => intro acc h; simpa using h
  | cons a l ih =>
    intro acc h
    simp only [List.foldl_cons]
    exact ih _ (insertPy_sorted htot htrans a h)

theorem pySorted_sorted {α : Type} {le : α → α → Bool}
    (htot : ∀ a b, le a b = true ∨ le b a = true)
    (htrans : ∀ a b c, le a b = true → le b c = true → le a c = true)
    (l : List α) :
    (pySorted le l).Pairwise (fun a b => le a b = true) :=
  pySorted_sorted_aux htot htrans l [] List.Pairwise.nil

/-! ### The eviction pass (C2) -/

theorem evict_of_not_full {α : Type} (c : CacheService α)
    (h : c.cache.length < c.max_size) : c.evict_if_needed = c := by
  unfold CacheService.evict_if_needed
  rw [if_pos h]

/-- Shape of the eviction pass when the store is at or above capacity: the
new store is, up to the order kept from the original map, the sorted-by-
last-access list with its first `max 1 (n / 5)` entries' keys deleted. -/
theorem evict_full_shape {α : Type} (c : CacheService α)
    (hfull : c.max_size ≤ c.cache.length) :
    c.evict_if_needed.cache =
      c.cache.filter (fun kv => decide (kv.1 ∉
        ((pySorted (fun kv kv' =>
            decide (kv.2.last_accessed ≤ kv'.2.last_accessed)) c.cache).take
          (max 1 ((pySorted (fun kv kv' =>
            decide (kv.2.last_accessed ≤ kv'.2.last_accessed)) c.cache).length / 5))).map
          (fun kv => kv.1))) ∧
    c.evict_if_needed.max_size = c.max_size ∧
    c.evict_if_needed.cleanup_interval = c.cleanup_interval ∧
    c.evict_if_needed.last_cleanup = c.last_cleanup := by
  unfold CacheService.evict_if_needed
  rw [if_neg (not_lt.2 hfull)]
  exact ⟨rfl, rfl, rfl, rfl⟩

/-- The exact effect of a triggered eviction pass on a well-formed store:
exactly `max 1 (n / 5)` entries are removed, survivors come from the
original store, and (with pairwise-distinct access times) every evicted
entry is strictly older than every survivor. -/
theorem evict_exact {α : Type} (c : CacheService α)
    (hkeys : (c.cache.map (fun kv => kv.1)).Nodup)
    (hla : c.cache.Pairwise
      (fun kv kv' => kv.2.last_accessed ≠ kv'.2.last_accessed))
    (hfull : c.max_size ≤ c.cache.length) (hpos : 1 ≤ c.cache.length) :
    c.evict_if_needed.cache.length =
      c.cache.length - max 1 (c.cache.length / 5) ∧
    (∀ kv ∈ c.evict_if_needed.cache, kv ∈ c.cache) ∧
    (∀ kv ∈ c.evict_if_needed.cache, ∀ kv' ∈ c.cache,
      kv' ∉ c.evict_if_needed.cache →
      kv'.2.last_accessed < kv.2.last_accessed) := by
  obtain ⟨hcache, -, -, -⟩ := evict_full_shape c hfull
  set le : (String × CacheEntry α) → (String × CacheEntry α) → Bool :=
    fun kv kv' => decide (kv.2.last_accessed ≤ kv'.2.last_accessed) with hle
  set s := pySorted le c.cache with hs
  set m := max 1 (s.length / 5) with hm
  set E := (s.take m).map (fun kv => kv.1) with hE
  have hperm : s.Perm c.cache := pySorted_perm le c.cache
  have hslen : s.length = c.cache.length := hperm.length_eq
  have hsorted : s.Pairwise (fun a b => le a b = true) := by
    refine pySorted_sorted ?_ ?_ c.cache
    · intro a b
      simp only [hle, decide_eq_true_eq]
      omega
    · intro a b d
      simp only [hle, decide_eq_true_eq]
      omega
  have hm_le : m ≤ s.length := by
    have := Nat.div_le_self s.length 5
    rw [hm]
    omega
  have hsplit : s.take m ++ s.drop m = s := List.take_append_drop m s
  have hsnodup : (s.map (fun kv => kv.1)).Nodup :=
    ((hperm.map (fun kv => kv.1)).nodup_iff).2 hkeys
  have hdisj : ∀ kv ∈ s.drop m, kv.1 ∉ E := by
    intro kv hkv hEmem
    obtain ⟨kv', hkv', hk⟩ := List.mem_map.1 hEmem
    rw [← hsplit, List.map_append, List.nodup_append] at hsnodup
    exact hsnodup.2.2 (List.mem_map_of_mem _ hkv') (hk ▸ List.mem_map_of_mem _ hkv)
  have htakeE : ∀ kv ∈ s.take m, kv.1 ∈ E := fun kv hkv =>
    List.mem_map_of_mem _ hkv
  have hfilter_perm :
      c.evict_if_needed.cache.Perm (s.filter (fun kv => decide (kv.1 ∉ E))) := by
    rw [hcache]
    exact (hperm.filter _).symm
  have htake_nil : (s.take m).filter (fun kv => decide (kv.1 ∉ E)) = [] := by
    rw [List.filter_eq_nil_iff]
    intro kv hkv
    simp only [decide_eq_true_eq, not_not]
    exact htakeE kv hkv
  have hdrop_all : (s.drop m).filter (fun kv => decide (kv.1 ∉ E)) = s.drop m := by
    rw [List.filter_eq_self]
    intro kv hkv
    simpa using hdisj kv hkv
  have hfilter_eq : s.filter (fun kv => decide (kv.1 ∉ E)) = s.drop m := by
    conv_lhs => rw [← hsplit]
    rw [List.filter_append, htake_nil, hdrop_all, List.nil_append]
  have hlen : c.evict_if_needed.cache.length = c.cache.length - m := by
    rw [hfilter_perm.length_eq, hfilter_eq, List.length_drop, hslen]
  have hmem_drop : ∀ kv ∈ c.evict_if_needed.cache, kv ∈ s.drop m := by
    intro kv hkv
    have := hfilter_perm.mem_iff.1 hkv
    rw [hfilter_eq] at this
    exact this
  have hmem_cache : ∀ kv ∈ c.evict_if_needed.cache, kv ∈ c.cache := by
    intro kv hkv
    rw [hcache] at hkv
    exact List.mem_of_mem_filter hkv
  refine ⟨by rw [hlen, hm, hslen], hmem_cache, ?_⟩
  intro kv hkv kv' hkv' hkv'not
  have hkvdrop : kv ∈ s.drop m := hmem_drop kv hkv
  have hkv'take : kv' ∈ s.take m := by
    have hs' : kv' ∈ s := hperm.mem_iff.2 hkv'
    rw [← hsplit] at hs'
    rcases List.mem_append.1 hs' with h | h
    · exact h
    · exfalso
      refine hkv'not ?_
      rw [hcache]
      refine List.mem_filter.2 ⟨hkv', ?_⟩
      simpa using hdisj kv' h
  have hle' : kv'.2.last_accessed ≤ kv.2.last_accessed := by
    rw [← hsplit] at hsorted
    have := (List.pairwise_append.1 hsorted).2.2 kv' hkv'take kv hkvdrop
    simpa [hle] using this
  have hne : kv'.2.last_accessed ≠ kv.2.last_accessed := by
    have hlas : s.Pairwise
        (fun kv kv' => kv.2.last_accessed ≠ kv'.2.last_accessed) := by
      refine (hperm.pairwise_iff ?_).2 hla
      intro a b h
      exact h.symm
    rw [← hsplit] at hlas
    exact (List.pairwise_append.1 hlas).2.2 kv' hkv'take kv hkvdrop
  omega

theorem evict_length_lt {α : Type} (c : CacheService α)
    (hfull : c.max_size ≤ c.cache.length) (hpos : 1 ≤ c.cache.length) :
    c.evict_if_needed.cache.length < c.cache.length := by
  obtain ⟨hcache, -, -, -⟩ := evict_full_shape c hfull
  set le : (String × CacheEntry α) → (String × CacheEntry α) → Bool :=
    fun kv kv' => decide (kv.2.last_accessed ≤ kv'.2.last_accessed) with hle
  set s := pySorted le c.cache with hs
  set m := max 1 (s.length / 5) with hm
  set E := (s.take m).map (fun kv => kv.1) with hE
  have hperm : s.Perm c.cache := pySorted_perm le c.cache
  have hslen : s.length = c.cache.length := hperm.length_eq
  have hm1 : 1 ≤ m := le_max_left _ _
  have hm_le : m ≤ s.length := by
    have := Nat.div_le_self s.length 5
    rw [hm]
    omega
  have htake_nil : (s.take m).filter (fun kv => decide (kv.1 ∉ E)) = [] := by
    rw [List.filter_eq_nil_iff]
    intro kv hkv
    simp only [decide_eq_true_eq, not_not]
    exact List.mem_map_of_mem _ hkv
  have hlen : c.evict_if_needed.cache.length =
      (s.filter (fun kv => decide (kv.1 ∉ E))).length := by
    rw [hcache]
    exact ((hperm.filter _).length_eq).symm
  have : (s.filter (fun kv => decide (kv.1 ∉ E))).length ≤ s.length - m := by
    conv_lhs => rw [← List.take_append_drop m s]
    rw [List.filter_append, htake_nil, List.nil_append]
    calc ((s.drop m).filter _).length ≤ (s.drop m).length :=
          List.length_filter_le _ _
      _ = s.length - m := List.length_drop m s
  omega

theorem cleanup_length_le {α : Type} (c : CacheService α) (now : Nat) :
    (c.cleanup_expired now).cache.length ≤ c.cache.length := by
  unfold CacheService.cleanup_expired
  split
  · exact le_refl _
  · exact List.length_filter_le _ _

theorem cleanup_fields {α : Type} (c : CacheService α) (now : Nat) :
    (c.cleanup_expired now).max_size = c.max_size ∧
    (c.cleanup_expired now).cleanup_interval = c.cleanup_interval := by
  unfold CacheService.cleanup_expired
  split <;> exact ⟨rfl, rfl⟩

theorem evict_fields {α : Type} (c : CacheService α) :
    c.evict_if_needed.max_size = c.max_size ∧
    c.evict_if_needed.cleanup_interval = c.cleanup_interval ∧
    c.evict_if_needed.last_cleanup = c.last_cleanup := by
  unfold CacheService.evict_if_needed
  split <;> exact ⟨rfl, rfl, rfl⟩

theorem evict_length_le {α : Type} (c : CacheService α) :
    c.evict_if_needed.cache.length ≤ c.cache.length := by
  by_cases h : c.cache.length < c.max_size
  · rw [evict_of_not_full c h]
  · obtain ⟨hcache, -, -, -⟩ := evict_full_shape c (not_lt.1 h)
    rw [hcache]
    exact List.length_filter_le _ _

theorem dictSet_length_le {β : Type} (d : List (String × β)) (k : String)
    (v : β) : (dictSet d k v).length ≤ d.length + 1 := by
  unfold dictSet
  split
  · rw [List.length_map]
    omega
  · rw [List.length_append]
    simp

theorem dictSet_length_of_mem {β : Type} (d : List (String × β)) (k : String)
    (v : β) (h : d.any (fun kv => kv.1 == k) = true) :
    (dictSet d k v).length = d.length := by
  unfold dictSet
  rw [if_pos h, List.length_map]

theorem dictGet_any {β : Type} {d : List (String × β)} {k : String} {e : β}
    (h : dictGet d k = some e) : d.any (fun kv => kv.1 == k) = true := by
  unfold dictGet at h
  rcases hf : d.find? (fun kv => kv.1 == k) with _ | kv
  · rw [hf] at h; simp at h
  · have hp := List.find?_some hf
    exact List.any_eq_true.2 ⟨kv, List.mem_of_find?_eq_some hf, hp⟩

theorem set_length_le {α : Type} (c : CacheService α) (now : Nat)
    (key : String) (value : α) (ttl : Nat) (hpos : 1 ≤ c.max_size)
    (hinv : c.cache.length ≤ c.max_size) :
    ((c.set now key value ttl).2).cache.length ≤ c.max_size := by
  have h1 : (c.cleanup_expired now).cache.length ≤ c.max_size :=
    le_trans (cleanup_length_le c now) hinv
  have hmax1 : (c.cleanup_expired now).max_size = c.max_size :=
    (cleanup_fields c now).1
  have h2 : ((c.cleanup_expired now).evict_if_needed).cache.length + 1 ≤
      c.max_size := by
    by_cases hlt : (c.cleanup_expired now).cache.length <
        (c.cleanup_expired now).max_size
    · rw [evict_of_not_full _ hlt]
      omega
    · have hfull := not_lt.1 hlt
      have hp1 : 1 ≤ (c.cleanup_expired now).cache.length := by omega
      have := evict_length_lt _ hfull hp1
      omega
  calc ((c.set now key value ttl).2).cache.length ≤
      ((c.cleanup_expired now).evict_if_needed).cache.length + 1 :=
        dictSet_length_le _ _ _
    _ ≤ c.max_size := h2

theorem get_length_le {α : Type} (c : CacheService α) (now : Nat)
    (key : String) : ((c.get now key).2).cache.length ≤ c.cache.length := by
  have h1 := cleanup_length_le c now
  rcases hdg : dictGet (c.cleanup_expired now).cache key with _ | entry
  · simp only [CacheService.get, hdg]
    exact h1
  · cases hexp : entry.is_expired now with
    | true =>
      simp only [CacheService.get, hdg, hexp, if_true]
      exact le_trans (List.length_filter_le _ _) h1
    | false =>
      simp only [CacheService.get, hdg, hexp, Bool.false_eq_true, if_false]
      rw [dictSet_length_of_mem _ _ _ (dictGet_any hdg)]
      exact h1

theorem get_max_size {α : Type} (c : CacheService α) (now : Nat)
    (key : String) : ((c.get now key).2).max_size = c.max_size := by
  rcases hdg : dictGet (c.cleanup_expired now).cache key with _ | entry
  · simp only [CacheService.get, hdg]
    exact (cleanup_fields c now).1
  · cases hexp : entry.is_expired now with
    | true =>
      simp only [CacheService.get, hdg, hexp, if_true]
      exact (cleanup_fields c now).1
    | false =>
      simp only [CacheService.get, hdg, hexp, Bool.false_eq_true, if_false]
      exact (cleanup_fields c now).1

theorem set_max_size {α : Type} (c : CacheService α) (now : Nat)
    (key : String) (value : α) (ttl : Nat) :
    ((c.set now key value ttl).2).max_size = c.max_size := by
  show ((c.cleanup_expired now).evict_if_needed).max_size = c.max_size
  rw [(evict_fields _).1, (cleanup_fields c now).1]

theorem applyOp_bound {α : Type} (c : CacheService α) (op : CacheOp α)
    (hpos : 1 ≤ c.max_size) (hinv : c.cache.length ≤ c.max_size) :
    (applyOp c op).cache.length ≤ (applyOp c op).max_size ∧
    (applyOp c op).max_size = c.max_size := by
  cases op with
  | opGet now key =>
    simp only [applyOp]
    refine ⟨?_, get_max_size c now key⟩
    rw [get_max_size c now key]
    exact le_trans (get_length_le c now key) hinv
  | opSet now key v ttl =>
    simp only [applyOp]
    refine ⟨?_, set_max_size c now key v ttl⟩
    rw [set_max_size c now key v ttl]
    exact set_length_le c now key v ttl hpos hinv
  | opDelete key =>
    simp only [applyOp, CacheService.delete]
    split
    · refine ⟨?_, rfl⟩
      exact le_trans (List.length_filter_le _ _) hinv
    · exact ⟨hinv, rfl⟩
  | opClear pfx =>
    cases pfx with
    | none =>
      simp only [applyOp, CacheService.clear]
      exact ⟨by simp, trivial⟩
    | some p =>
      simp only [applyOp, CacheService.clear]
      refine ⟨?_, trivial⟩
      exact le_trans (List.length_filter_le _ _) hinv

theorem runOps_bound {α : Type} :
    ∀ (ops : List (CacheOp α)) (c : CacheService α), 1 ≤ c.max_size →
      c.cache.length ≤ c.max_size →
      (runOps c ops).cache.length ≤ c.max_size := by
  intro ops
  induction ops with
  | nil => intro c _ hinv; exact hinv
  | cons op ops ih =>
    intro c hpos hinv
    obtain ⟨h1, h2⟩ := applyOp_bound c op hpos hinv
    have := ih (applyOp c op) (h2 ▸ hpos) (h2 ▸ h1)
    rw [h2] at this
    exact this

/-! ### Association-list (Python dict) lemmas -/

theorem mem_keyUnique {β : Type} :
    ∀ {d : List (String × β)}, (d.map (fun kv => kv.1)).Nodup →
      ∀ {k : String} {e e' : β}, (k, e) ∈ d → (k, e') ∈ d → e = e' := by
  intro d
  induction d with
  | nil => intro _ k e e' h; simp at h
  | cons kv d ih =>
    intro hnd k e e' h1 h2
    rw [List.map_cons, List.nodup_cons] at hnd
    rcases List.mem_cons.1 h1 with rfl | h1' <;>
      rcases List.mem_cons.1 h2 with h2' | h2'
    · exact congrArg Prod.snd h2'.symm
    · exact absurd (List.mem_map_of_mem (fun kv => kv.1) h2') (by simpa using hnd.1)
    · rw [← h2'] at hnd
      exact absurd (List.mem_map_of_mem (fun kv => kv.1) h1') (by simpa using hnd.1)
    · exact ih hnd.2 h1' h2'

theorem dictGet_mem {β : Type} {d : List (String × β)} {k : String} {e : β}
    (h : dictGet d k = some e) : (k, e) ∈ d := by
  unfold dictGet at h
  rcases hf : d.find? (fun kv => kv.1 == k) with _ | kv
  · rw [hf] at h; simp at h
  · rw [hf] at h
    have h2 : kv.2 = e := by simpa using h
    have hk : kv.1 = k := by simpa using List.find?_some hf
    have hm := List.mem_of_find?_eq_some hf
    have hkv : kv = (k, e) := by
      obtain ⟨a, b⟩ := kv
      simp only at h2 hk
      rw [h2, hk]
    exact hkv ▸ hm

theorem dictGet_some_of_mem {β : Type} {d : List (String × β)}
    (hnd : (d.map (fun kv => kv.1)).Nodup) {k : String} {e : β}
    (hm : (k, e) ∈ d) : dictGet d k = some e := by
  unfold dictGet
  rcases hf : d.find? (fun kv => kv.1 == k) with _ | kv
  · exfalso
    have := List.find?_eq_none.1 hf (k, e) hm
    simp at this
  · rw [hf]
    have hk : kv.1 = k := by simpa using List.find?_some hf
    have hm' : (k, kv.2) ∈ d := by
      rw [← hk]
      exact List.mem_of_find?_eq_some hf
    have h2 : kv.2 = e := mem_keyUnique hnd hm' hm
    simp [h2]

theorem dictGet_none_iff {β : Type} {d : List (String × β)} {k : String} :
    dictGet d k = none ↔ ∀ kv ∈ d, kv.1 ≠ k := by
  unfold dictGet
  rcases hf : d.find? (fun kv => kv.1 == k) with _ | kv
  · rw [hf]
    constructor
    · intro _ kv hm
      have := List.find?_eq_none.1 hf kv hm
      simpa using this
    · intro _; rfl
  · rw [hf]
    constructor
    · intro h; simp at h
    · intro h
      exfalso
      have hk : kv.1 = k := by simpa using List.find?_some hf
      exact h kv (List.mem_of_find?_eq_some hf) hk

theorem dictDelete_get {β : Type} (d : List (String × β)) (k : String) :
    dictGet (dictDelete d k) k = none := by
  rw [dictGet_none_iff]
  intro kv hm
  have := List.of_mem_filter hm
  simpa using this

theorem dictSet_keys_of_mem {β : Type} (d : List (String × β)) (k : String)
    (v : β) (h : d.any (fun kv => kv.1 == k) = true) :
    (dictSet d k v).map (fun kv => kv.1) = d.map (fun kv => kv.1) := by
  unfold dictSet
  rw [if_pos h, List.map_map]
  refine List.map_congr_left ?_
  intro kv _
  by_cases hk : (kv.1 == k) = true
  · simp [Function.comp, hk]
  · simp [Function.comp, hk]

theorem dictSet_get_self {β : Type} {d : List (String × β)}
    (hnd : (d.map (fun kv => kv.1)).Nodup) (k : String) (v : β) :
    dictGet (dictSet d k v) k = some v := by
  by_cases h : d.any (fun kv => kv.1 == k) = true
  · obtain ⟨kv, hkv, hk⟩ := List.any_eq_true.1 h
    have hk' : kv.1 = k := by simpa using hk
    have hnd' : ((dictSet d k v).map (fun kv => kv.1)).Nodup := by
      rw [dictSet_keys_of_mem d k v h]
      exact hnd
    refine dictGet_some_of_mem hnd' ?_
    unfold dictSet
    rw [if_pos h]
    have : (k, v) = (fun kv : String × β =>
        if kv.1 == k then (kv.1, v) else kv) kv := by
      simp [hk', hk]
    rw [this]
    exact List.mem_map_of_mem _ hkv
  · have hnd' : ((dictSet d k v).map (fun kv => kv.1)).Nodup := by
      unfold dictSet
      rw [if_neg h, List.map_append, List.nodup_append]
      refine ⟨hnd, by simp, ?_⟩
      intro x hx hx'
      simp only [List.map_cons, List.map_nil, List.mem_singleton] at hx'
      obtain ⟨kv, hkv, rfl⟩ := List.mem_map.1 hx
      rw [List.any_eq_true] at h
      push_neg at h
      have := h kv hkv
      rw [hx'] at this
      simp at this
    refine dictGet_some_of_mem hnd' ?_
    unfold dictSet
    rw [if_neg h]
    exact List.mem_append.2 (Or.inr (List.mem_singleton.2 rfl))

theorem dictGet_filter_none {β : Type} {d : List (String × β)} {k : String}
    (p : String × β → Bool) (h : dictGet d k = none) :
    dictGet (d.filter p) k = none := by
  rw [dictGet_none_iff] at h ⊢
  exact fun kv hm => h kv (List.mem_of_mem_filter hm)

theorem keys_nodup_filter {β : Type} {d : List (String × β)}
    (hnd : (d.map (fun kv => kv.1)).Nodup) (p : String × β → Bool) :
    ((d.filter p).map (fun kv => kv.1)).Nodup :=
  ((List.filter_sublist d).map (fun kv => kv.1)).nodup hnd

/-- C2: the eviction policy and the size bound of the cache.  (1) No
eviction happens below capacity.  (2) `set` runs the eviction pass before
inserting the new entry (stated for a `set` whose opportunistic sweep is
not yet due, so that the pass acts on the store as given).  (3) When
triggered on a store with `n ≥ max_size` entries (distinct access times),
the pass removes exactly the `max 1 (n / 5)` entries with the oldest
last-access times — every evicted entry is strictly older than every
survivor.  (4) Consequently, starting from an empty cache with
`max_size ≥ 1`, the entry count never exceeds `max_size` under any
sequence of get/set/delete/clear operations. -/
theorem C2_eviction_policy_and_bound :
    (∀ (α : Type) (c : CacheService α),
      c.cache.length < c.max_size → c.evict_if_needed = c) ∧
    (∀ (α : Type) (c : CacheService α) (now : Nat) (key : String) (v : α)
      (ttl : Nat), now - c.last_cleanup < c.cleanup_interval →
      ((c.set now key v ttl).2).cache =
        dictSet c.evict_if_needed.cache key (CacheEntry.make now key v ttl)) ∧
    (∀ (α : Type) (c : CacheService α),
      (c.cache.map (fun kv => kv.1)).Nodup →
      c.cache.Pairwise
        (fun kv kv' => kv.2.last_accessed ≠ kv'.2.last_accessed) →
      c.max_size ≤ c.cache.length → 1 ≤ c.cache.length →
      c.evict_if_needed.cache.length =
        c.cache.length - max 1 (c.cache.length / 5) ∧
      (∀ kv ∈ c.evict_if_needed.cache, kv ∈ c.cache) ∧
      (∀ kv ∈ c.evict_if_needed.cache, ∀ kv' ∈ c.cache,
        kv' ∉ c.evict_if_needed.cache →
        kv'.2.last_accessed < kv.2.last_accessed)) ∧
    (∀ (α : Type) (maxSize interval t0 : Nat) (ops : List (CacheOp α)),
      1 ≤ maxSize →
      (runOps (CacheService.make α t0 maxSize interval) ops).cache.length ≤
        maxSize) := by
  refine ⟨fun α c h => evict_of_not_full c h, ?_, ?_, ?_⟩
  · intro α c now key v ttl hdue
    have hcl : c.cleanup_expired now = c := by
      unfold CacheService.cleanup_expired
      rw [if_pos hdue]
    show (dictSet ((c.cleanup_expired now).evict_if_needed).cache key
      (CacheEntry.make now key v ttl)) = _
    rw [hcl]
  · intro α c hkeys hla hfull hpos
    exact evict_exact c hkeys hla hfull hpos
  · intro α maxSize interval t0 ops hpos
    exact runOps_bound ops (CacheService.make α t0 maxSize interval) hpos
      (by simp [CacheService.make])

/-- Witness for C2: three inserts into a two-slot cache stay within the
bound, and a concrete full store evicts exactly its oldest entry. -/
theorem C2_witness :
    (runOps (CacheService.make Nat 0 2 300)
      [CacheOp.opSet 1 "a" 10 1800, CacheOp.opSet 2 "b" 20 1800,
       CacheOp.opSet 3 "c" 30 1800]).cache.length ≤ 2 ∧
    ({ cache := [("a", ⟨"a", 10, 1, 1, 1800, 0⟩), ("b", ⟨"b", 20, 2, 2, 1800, 0⟩)],
       max_size := 2, cleanup_interval := 300,
       last_cleanup := 0 } : CacheService Nat).evict_if_needed.cache.length
      = 2 - max 1 (2 / 5) := by
  constructor
  · exact C2_eviction_policy_and_bound.2.2.2 Nat 2 300 0 _ (by decide)
  · exact (C2_eviction_policy_and_bound.2.2.1 Nat _ (by decide) (by decide)
      (by decide) (by decide)).1

/-- C3: TTL semantics of `get` on a well-formed store (unique keys): a
stored entry whose age has not exceeded its TTL is returned and its access
metadata touched (last-access set to now, counter bumped); an entry whose
age exceeds its TTL yields `none` and is deleted as a side effect; a key
never stored yields `none`. -/
theorem C3_get_ttl_semantics :
    ∀ (α : Type) (c : CacheService α) (now : Nat) (key : String),
      (c.cache.map (fun kv => kv.1)).Nodup →
      (∀ e : CacheEntry α, dictGet c.cache key = some e →
        now - e.created_at ≤ e.ttl_seconds →
        (c.get now key).1 = some e.value ∧
        dictGet ((c.get now key).2).cache key = some (e.access now) ∧
        (e.access now).last_accessed = now ∧
        (e.access now).access_count = e.access_count + 1) ∧
      (∀ e : CacheEntry α, dictGet c.cache key = some e →
        e.ttl_seconds < now - e.created_at →
        (c.get now key).1 = none ∧
        dictGet ((c.get now key).2).cache key = none) ∧
      (dictGet c.cache key = none → (c.get now key).1 = none) := by
  intro α c now key hnd
  have hnd1 : ((c.cleanup_expired now).cache.map (fun kv => kv.1)).Nodup := by
    unfold CacheService.cleanup_expired
    split
    · exact hnd
    · exact keys_nodup_filter hnd _
  refine ⟨?_, ?_, ?_⟩
  · intro e he hlive
    have hexp : e.is_expired now = false := by
      simp only [CacheEntry.is_expired, decide_eq_false_iff_not]
      omega
    have he1 : dictGet (c.cleanup_expired now).cache key = some e := by
      unfold CacheService.cleanup_expired
      split
      · exact he
      · refine dictGet_some_of_mem (keys_nodup_filter hnd _) ?_
        refine List.mem_filter.2 ⟨dictGet_mem he, ?_⟩
        simp [hexp]
    refine ⟨?_, ?_, rfl, rfl⟩
    · simp only [CacheService.get, he1, hexp, Bool.false_eq_true, if_false]
    · simp only [CacheService.get, he1, hexp, Bool.false_eq_true, if_false]
      exact dictSet_get_self hnd1 key (e.access now)
  · intro e he hexpired
    have hexp : e.is_expired now = true := by
      simp only [CacheEntry.is_expired, decide_eq_true_eq]
      omega
    by_cases hdue : now - c.last_cleanup < c.cleanup_interval
    · have hcl : c.cleanup_expired now = c := by
        unfold CacheService.cleanup_expired
        rw [if_pos hdue]
      have he1 : dictGet (c.cleanup_expired now).cache key = some e := by
        rw [hcl]; exact he
      refine ⟨?_, ?_⟩
      · simp only [CacheService.get, he1, hexp, if_true]
      · simp only [CacheService.get, he1, hexp, if_true]
        exact dictDelete_get _ key
    · have he1 : dictGet (c.cleanup_expired now).cache key = none := by
        unfold CacheService.cleanup_expired
        rw [if_neg hdue]
        rw [dictGet_none_iff]
        intro kv hm hk
        have hkv : (key, kv.2) ∈ c.cache := by
          rw [← hk]
          exact List.mem_of_mem_filter hm
        have h2 : kv.2 = e := mem_keyUnique hnd hkv (dictGet_mem he)
        have hpred := List.of_mem_filter hm
        rw [h2] at hpred
        simp [hexp] at hpred
      refine ⟨?_, ?_⟩
      · simp only [CacheService.get, he1]
      · simp only [CacheService.get, he1]
  · intro he
    have he1 : dictGet (c.cleanup_expired now).cache key = none := by
      unfold CacheService.cleanup_expired
      split
      · exact he
      · exact dictGet_filter_none _ he
    simp only [CacheService.get, he1]

/-- A one-entry cache used by the C3 and C10 witnesses: entry `"k"`
created at time 100 with TTL 60, last sweep at time 100. -/
def ttlExampleCache : CacheService Nat :=
  ⟨[("k", ⟨"k", 7, 100, 100, 60, 0⟩)], 100, 300, 100⟩

/-- Witness for C3: the general theorem applied to a one-entry cache at a
time inside, and a time past, the entry's TTL. -/
theorem C3_witness :
    ((ttlExampleCache.get 130 "k").1 = some 7 ∧
      (ttlExampleCache.get 161 "k").1 = none) := by
  constructor
  · exact ((C3_get_ttl_semantics Nat ttlExampleCache 130 "k" (by decide)).1
      ⟨"k", 7, 100, 100, 60, 0⟩ (by decide) (by decide)).1
  · exact ((C3_get_ttl_semantics Nat ttlExampleCache 161 "k" (by decide)).2.1
      ⟨"k", 7, 100, 100, 60, 0⟩ (by decide) (by decide)).1

theorem exists_state {α : Type} (c : CacheService α) (now : Nat)
    (key : String) : (c.exists now key).2 = c.cleanup_expired now := by
  rcases hdg : dictGet (c.cleanup_expired now).cache key with _ | entry
  · simp only [CacheService.exists, hdg]
  · simp only [CacheService.exists, hdg]

/-- C10 (amended): `exists` never touches access metadata and, apart from
the shared periodic expiry sweep, never mutates the cache: when the sweep
is not due the state is completely unchanged, so an expired entry is
reported `false` but retained; in general the store only shrinks by
dropping expired entries, every surviving entry keeping its exact
metadata; on a non-expired hit it returns `true` with the entry still
bound to its original, untouched record, while `get` on the same state
returns the value and rebinds the entry with touched metadata; and in the
retained-expired situation `get` — in contrast — deletes the entry. -/
theorem C10_exists_no_mutation :
    ∀ (α : Type) (c : CacheService α) (now : Nat) (key : String),
      (now - c.last_cleanup < c.cleanup_interval →
        (c.exists now key).2 = c) ∧
      ((c.exists now key).2.cache.Sublist c.cache) ∧
      (∀ kv ∈ c.cache, kv ∉ (c.exists now key).2.cache →
        kv.2.is_expired now = true) ∧
      (∀ e : CacheEntry α,
        ((c.cleanup_expired now).cache.map (fun kv => kv.1)).Nodup →
        dictGet (c.cleanup_expired now).cache key = some e →
        e.is_expired now = false →
        (c.exists now key).1 = true ∧
        dictGet ((c.exists now key).2).cache key = some e ∧
        (c.get now key).1 = some e.value ∧
        dictGet ((c.get now key).2).cache key = some (e.access now)) ∧
      (∀ e : CacheEntry α, dictGet c.cache key = some e →
        now - c.last_cleanup < c.cleanup_interval →
        e.is_expired now = true →
        (c.exists now key).1 = false ∧
        dictGet ((c.exists now key).2).cache key = some e ∧
        dictGet ((c.get now key).2).cache key = none) := by
  intro α c now key
  refine ⟨?_, ?_, ?_, ?_, ?_⟩
  · intro hdue
    rw [exists_state]
    unfold CacheService.cleanup_expired
    rw [if_pos hdue]
  · rw [exists_state]
    unfold CacheService.cleanup_expired
    split
    · exact List.Sublist.refl _
    · exact List.filter_sublist _
  · intro kv hm hnot
    rw [exists_state] at hnot
    by_contra hexp
    rw [Bool.not_eq_true] at hexp
    refine hnot ?_
    unfold CacheService.cleanup_expired
    split
    · exact hm
    · exact List.mem_filter.2 ⟨hm, by simp [hexp]⟩
  · intro e hnd he1 hexp
    refine ⟨?_, ?_, ?_, ?_⟩
    · simp only [CacheService.exists, he1, hexp, Bool.not_false]
    · rw [exists_state]
      exact he1
    · simp only [CacheService.get, he1, hexp, Bool.false_eq_true, if_false]
    · simp only [CacheService.get, he1, hexp, Bool.false_eq_true, if_false]
      exact dictSet_get_self hnd key (e.access now)
  · intro e he hdue hexp
    have hcl : c.cleanup_expired now = c := by
      unfold CacheService.cleanup_expired
      rw [if_pos hdue]
    have he1 : dictGet (c.cleanup_expired now).cache key = some e := by
      rw [hcl]; exact he
    refine ⟨?_, ?_, ?_⟩
    · simp only [CacheService.exists, he1, hexp, Bool.not_true]
    · rw [exists_state, hcl]
      exact he
    · simp only [CacheService.get, he1, hexp, if_true]
      exact dictDelete_get _ key

/-- Counterexample for C10 as frozen: when the periodic sweep is due,
`exists` on an expired key not only returns `false` but also deletes the
entry from the map (here the sweep fires at time 400 on an entry created
at 100 with TTL 60), contradicting "leaves the entry in the map". -/
theorem C10_counterexample :
    dictGet ttlExampleCache.cache "k" = some ⟨"k", 7, 100, 100, 60, 0⟩ ∧
    (ttlExampleCache.exists 400 "k").1 = false ∧
    dictGet ((ttlExampleCache.exists 400 "k").2).cache "k" = none := by
  decide

/-- Witness for C10 (amended): applied to the concrete one-entry cache at
a time where the entry is live (`exists` reports `true` with the record
untouched, `get` touches it) and at a time where it is expired but the
sweep is not yet due (`exists` reports `false` and retains it, `get`
deletes it). -/
theorem C10_witness :
    ((ttlExampleCache.exists 120 "k").1 = true ∧
      dictGet ((ttlExampleCache.exists 120 "k").2).cache "k" =
        some ⟨"k", 7, 100, 100, 60, 0⟩ ∧
      (ttlExampleCache.get 120 "k").1 = some 7 ∧
      dictGet ((ttlExampleCache.get 120 "k").2).cache "k" =
        some ((⟨"k", 7, 100, 100, 60, 0⟩ : CacheEntry Nat).access 120)) ∧
    ((ttlExampleCache.exists 161 "k").1 = false ∧
      dictGet ((ttlExampleCache.exists 161 "k").2).cache "k" =
        some ⟨"k", 7, 100, 100, 60, 0⟩ ∧
      dictGet ((ttlExampleCache.get 161 "k").2).cache "k" = none) := by
  refine ⟨?_, ?_⟩
  · exact (C10_exists_no_mutation Nat ttlExampleCache 120 "k").2.2.2.1
      ⟨"k", 7, 100, 100, 60, 0⟩ (by decide) (by decide) (by decide)
  · exact (C10_exists_no_mutation Nat ttlExampleCache 161 "k").2.2.2.2
      ⟨"k", 7, 100, 100, 60, 0⟩ (by decide) (by decide) (by decide)

/-! ## Schema introspection (`introspect_schema` in
`app/utils/schema_analyzer.py`)

The SQLAlchemy inspector is an external collaborator; its per-table
answers (column descriptors, primary-key constraint, foreign-key
constraints) and the engine's dialect name are modelled as input data. -/

/-- Python's substring test `pat in hay` on character lists. -/
def charsInfix (pat : List Char) : List Char → Bool
  | [] => decide (pat = [])
  | c :: rest => pat.isPrefixOf (c :: rest) || charsInfix pat rest

/-- Python `pat in hay` for strings. -/
def strContains (hay pat : String) : Bool :=
  charsInfix pat.data hay.data

/-- `_map_column_type`: normalize a raw type string by case-insensitive
substring matching against an ordered rule set; first match wins. -/
def map_column_type (column_type : String) : ColumnType :=
  let type_str := column_type.toUpper
  if ["INT", "BIGINT", "SMALLINT"].any (fun t => strContains type_str t) then
    ColumnType.INTEGER
  else if ["VARCHAR", "CHAR"].any (fun t => strContains type_str t) then
    ColumnType.VARCHAR
  else if strContains type_str "TEXT" then ColumnType.TEXT
  else if ["REAL", "DOUBLE", "FLOAT"].any (fun t => strContains type_str t) then
    ColumnType.REAL
  else if strContains type_str "BLOB" then ColumnType.BLOB
  else if strContains type_str "BOOLEAN" || strContains type_str "BOOL" then
    ColumnType.BOOLEAN
  else if strContains type_str "DATETIME" then ColumnType.DATETIME
  else if strContains type_str "DATE" then ColumnType.DATE
  else if strContains type_str "TIME" then ColumnType.TIME
  else if strContains type_str "DECIMAL" then ColumnType.DECIMAL
  else ColumnType.UNKNOWN

/-- `_dialect_from_engine`: normalize the engine's dialect name. -/
def dialect_from_engine (name : String) : String :=
  if name.startsWith "postgres" then "postgresql"
  else if name.startsWith "mysql" then "mysql"
  else if name.startsWith "sqlite" then "sqlite"
  else name

/-- One raw column descriptor from `inspector.get_columns` (`length` models
the `.length` attribute of the SQLAlchemy type object). -/
structure RawColumn where
  name : String
  type : String
  nullable : Bool := true
  default_value : Option String := none
  autoincrement : Bool := false
  length : Option Nat := none

/-- One raw foreign-key constraint from `inspector.get_foreign_keys`. -/
structure RawForeignKey where
  constrained_columns : List String
  referred_table : String
  referred_columns : List String
  name : Option String := none

/-- Everything the inspector reports about one table. -/
structure RawTable where
  name : String
  columns : List RawColumn
  pk_columns : List String
  foreign_keys : List RawForeignKey

/-- Everything `introspect_schema` reads from the engine. -/
structure RawDatabase where
  tables : List RawTable
  dialect : String
  database : Option String

/-- Python's truthiness fallback `a or b` on an optional string (both
`None` and `""` fall through to `b`). -/
def pyOr (a : Option String) (b : String) : String :=
  match a with
  | some s => if s = "" then b else s
  | none => b

/-- The first foreign key whose constrained columns contain this column
(the `for fk in raw_foreign_keys: ... break` scan). -/
def findColFK (col_name : String) (fks : List RawForeignKey) :
    Option RawForeignKey :=
  fks.find? (fun fk => fk.constrained_columns.contains col_name)

/-- The per-column body of the introspection loop: the built `ColumnInfo`
and, when the column participates in a foreign key, the created
`ForeignKeyRelation`.  (Python reads `referred_columns[0]` for the
`foreign_key` string, which raises on an empty list; here it is modelled
as the empty string.) -/
def buildColumn (table_name : String) (pk_columns : List String)
    (fks : List RawForeignKey) (col : RawColumn) :
    ColumnInfo × Option ForeignKeyRelation :=
  let fk_info := findColFK col.name fks
  let column_info : ColumnInfo :=
    { name := col.name
      type := col.type
      type_category := map_column_type col.type
      nullable := col.nullable
      primary_key := decide (col.name ∈ pk_columns)
      foreign_key := fk_info.map (fun fk =>
        fk.referred_table ++ "." ++ fk.referred_columns.headD "")
      default_value := col.default_value
      max_length := col.length
      auto_increment := col.autoincrement }
  (column_info, fk_info.map (fun fk =>
    { from_table := table_name
      from_column := col.name
      to_table := fk.referred_table
      to_column := fk.referred_columns.headD col.name
      constraint_name := fk.name }))

/-- One iteration of the table loop of `introspect_schema`. -/
def introspectTable (raw : RawTable) : TableInfo :=
  let results := raw.columns.map
    (buildColumn raw.name raw.pk_columns raw.foreign_keys)
  { name := raw.name
    columns := results.map (fun r => r.1)
    primary_keys := raw.pk_columns
    foreign_keys := results.filterMap (fun r => r.2)
    row_count := none
    table_comment := none }

/-- The table loop, threading the `all_relationships` accumulator exactly
as the source does (each table's relations appended in table order). -/
def introspectTables : List RawTable → List TableInfo × List ForeignKeyRelation
  | [] => ([], [])
  | raw :: rest =>
    let t := introspectTable raw
    let (ts, rels) := introspectTables rest
    (t :: ts, t.foreign_keys ++ rels)

/-- `introspect_schema`: reflect the raw catalog data into a
`DatabaseSchema` (the extraction timestamp is an input). -/
def introspect_schema (raw : RawDatabase) (database_name : Option String)
    (extracted_at : String) : DatabaseSchema :=
  { database_name := pyOr database_name (pyOr raw.database "default")
    database_type := dialect_from_engine raw.dialect
    tables := (introspectTables raw.tables).1
    relationships := (introspectTables raw.tables).2
    total_tables := (introspectTables raw.tables).1.length
    schema_version := "1.0"
    extracted_at := extracted_at }

theorem introspectTables_relationships :
    ∀ raws : List RawTable,
      (introspectTables raws).2 =
        ((introspectTables raws).1.map (fun t => t.foreign_keys)).flatten := by
  intro raws
  induction raws with
  | nil => rfl
  | cons raw rest ih =>
    simp only [introspectTables, List.map_cons, List.flatten_cons]
    rw [← ih]

/-- C8: every `DatabaseSchema` produced by `introspect_schema` satisfies
the data-model invariant: `relationships` is exactly the concatenation, in
table order, of each table's `foreign_keys`, and `total_tables` equals the
number of tables. -/
theorem C8_introspect_schema_invariant :
    ∀ (raw : RawDatabase) (database_name : Option String)
      (extracted_at : String),
      (introspect_schema raw database_name extracted_at).relationships =
        (((introspect_schema raw database_name extracted_at).tables.map
          (fun t => t.foreign_keys)).flatten) ∧
      (introspect_schema raw database_name extracted_at).total_tables =
        (introspect_schema raw database_name extracted_at).tables.length := by
  intro raw database_name extracted_at
  exact ⟨introspectTables_relationships raw.tables, rfl⟩

/-! ## Relevance ranking (`app/utils/retrieval.py`)

No `OPENAI_API_KEY` is part of the core: the optional embedding scores are
modelled as an explicit real-valued input where a claim mentions them, and
the shipped keyword-only mode sets them to zero. -/

/-- A character matched by the token regex `[a-z0-9_]+`. -/
def isTokenChar (c : Char) : Bool :=
  ('a' ≤ c && c ≤ 'z') || ('0' ≤ c && c ≤ '9') || c == '_'

/-- Maximal-run scanner behind `_tokenize`: `cur` is the (reversed)
current run of token characters. -/
def tokenizeChars : List Char → List Char → List String
  | [], cur => if cur.isEmpty then [] else [String.mk cur.reverse]
  | c :: cs, cur =>
    if isTokenChar c then tokenizeChars cs (c :: cur)
    else if cur.isEmpty then tokenizeChars cs []
    else String.mk cur.reverse :: tokenizeChars cs []

/-- `_tokenize`: lowercase, then the maximal `[a-z0-9_]+` runs in order
(`s.lower()` acts per character on the character list). -/
def tokenize (s : String) : List String :=
  tokenizeChars (s.data.map Char.toLower) []

/-- Python `str.endswith` as suffix-of on the character sequence. -/
def pyEndsWith (s suffix : String) : Bool :=
  suffix.data.isSuffixOf s.data

/-- `_table_keywords`: tokens of the table name, of every column name and
type, plus a singular/plural variant of the name; deduplicated keeping
first occurrences. -/
def table_keywords (t : TableInfo) : List String :=
  dedupFirst
    (tokenize t.name ++
     (t.columns.flatMap (fun c => tokenize c.name ++ tokenize c.type)) ++
     (if pyEndsWith t.name "s" then tokenize (t.name.dropRight 1)
      else tokenize (t.name ++ "s")))

/-- Size of the query token set `set(_tokenize(query))`. -/
def queryTokenCount (query : String) : Nat :=
  (dedupFirst (tokenize query)).length

/-- Size of the table vocabulary set `set(_table_keywords(table))`. -/
def tableTokenCount (t : TableInfo) : Nat :=
  (dedupFirst (table_keywords t)).length

/-- Size of the intersection of the two token sets. -/
def interCount (query : String) (t : TableInfo) : Nat :=
  ((dedupFirst (tokenize query)).filter
    (fun tok => decide (tok ∈ table_keywords t))).length

/-- `_keyword_score`: `|q ∩ t| / sqrt(|q| * |t|)`, zero when either token
set is empty. -/
noncomputable def keyword_score (query : String) (t : TableInfo) : ℝ :=
  if queryTokenCount query = 0 ∨ tableTokenCount t = 0 then 0
  else (interCount query t : ℝ) /
    Real.sqrt ((queryTokenCount query : ℝ) * (tableTokenCount t : ℝ))

/-- `_cosine` (pure-Python fallback path): dot product over the product of
the Euclidean norms, guarding a zero denominator with `1e-9`. -/
noncomputable def cosine (a b : List ℝ) : ℝ :=
  if a.length ≠ b.length then 0
  else
    let dot := (List.zipWith (fun x y => x * y) a b).sum
    let na := Real.sqrt ((a.map (fun x => x * x)).sum)
    let nb := Real.sqrt ((b.map (fun x => x * x)).sum)
    let denom := if na * nb = 0 then 1e-9 else na * nb
    dot / denom

/-- The combined relevance score `0.6 * keyword + 0.4 * semantic`; `emb`
is the semantic (embedding cosine) score, `0` in keyword-only mode. -/
noncomputable def combined_score (query : String) (t : TableInfo)
    (emb : ℝ) : ℝ :=
  0.6 * keyword_score query t + 0.4 * emb

/-- The integer data determining a keyword score:
`(intersection, |q| * |t|)`. -/
def kwRep (query : String) (t : TableInfo) : Nat × Nat :=
  (interCount query t, queryTokenCount query * tableTokenCount t)

/-- Decides `combined[a] ≥ combined[b]` in keyword-only mode by
cross-multiplied integer comparison (no square roots); this is exactly the
key comparison of the ranking sort (`combinedGe_correct` below). -/
def combinedGe (query : String) (a b : TableInfo) : Bool :=
  decide ((kwRep query b).1 * (kwRep query b).1 * (kwRep query a).2 ≤
    (kwRep query a).1 * (kwRep query a).1 * (kwRep query b).2)

/-- `select_relevant_tables` in keyword-only mode: stable-sort the tables
by combined score descending (ties keep schema order, as Python's
`sorted(..., reverse=True)`) and keep the first `top_k`.  The score map
the source returns alongside is `combined_score` with semantic score 0. -/
def select_relevant_tables (schema : DatabaseSchema) (nl_query : String)
    (top_k : Nat) : List TableInfo :=
  (pySorted (combinedGe nl_query) schema.tables).take top_k

/-- One `name:type` column item of a snippet line. -/
def columnSpec (c : ColumnInfo) : String :=
  c.name ++ ":" ++ c.type

/-- One `joins <other> ON <this>.<col> = <other>.<col>` snippet line. -/
def joinLine (t : TableInfo) (fk : ForeignKeyRelation) : String :=
  let via := match fk.constraint_name with
    | some n => " [FK " ++ n ++ "]"
    | none => ""
  "  joins " ++ fk.to_table ++ " ON " ++ t.name ++ "." ++ fk.from_column ++
    " = " ++ fk.to_table ++ "." ++ fk.to_column ++ via

/-- The snippet lines contributed by one table. -/
def tableLines (chosen : List String) (t : TableInfo) : List String :=
  ["- " ++ t.name ++ "(" ++
    String.intercalate ", " (t.columns.map columnSpec) ++ ")"] ++
  (if t.primary_keys.isEmpty then []
   else ["  PK: " ++ String.intercalate ", " t.primary_keys]) ++
  ((t.foreign_keys.filter (fun fk => decide (fk.to_table ∈ chosen))).map
    (joinLine t))

/-- All lines of `build_schema_snippet` for the chosen tables. -/
def snippetLines (tables : List TableInfo) : List String :=
  tables.flatMap (tableLines (tables.map (fun t => t.name)))

/-- `build_schema_snippet`: the newline-joined snippet lines (the schema
argument is present in the source signature but unused there too). -/
def build_schema_snippet (tables : List TableInfo)
    (schema : DatabaseSchema) : String :=
  String.intercalate "\n" (snippetLines tables)

/-- The adjacent-table names collected by `get_related_tables_for_query`
(a Python set, modelled in discovery order with first occurrences kept). -/
def relatedNames (schema : DatabaseSchema) (relevant : List TableInfo) :
    List String :=
  dedupFirst (relevant.flatMap (fun t =>
    schema.relationships.flatMap (fun r =>
      if r.from_table = t.name then [r.to_table]
      else if r.to_table = t.name then [r.from_table]
      else [])))

/-- The expansion loop of `get_related_tables_for_query`: append each
related table that is not already selected (by exact name), exists in the
schema, and fits under `max_tables`. -/
def addRelated (schema : DatabaseSchema) (max_tables : Nat) :
    List TableInfo → List String → List TableInfo
  | acc, [] => acc
  | acc, n :: ns =>
    if acc.any (fun t => t.name == n) then addRelated schema max_tables acc ns
    else
      match schema.get_table n with
      | none => addRelated schema max_tables acc ns
      | some t =>
        if acc.length < max_tables then
          addRelated schema max_tables (acc ++ [t]) ns
        else addRelated schema max_tables acc ns

/-- `get_related_tables_for_query`: the top-ranked tables, widened by one
hop of foreign-key adjacency when requested. -/
def get_related_tables_for_query (schema : DatabaseSchema)
    (nl_query : String) (include_relationships : Bool)
    (max_tables : Nat) : List TableInfo :=
  let relevant_tables := select_relevant_tables schema nl_query max_tables
  if include_relationships then
    addRelated schema max_tables relevant_tables
      (relatedNames schema relevant_tables)
  else relevant_tables

/-- `create_schema_context`: database header plus the schema snippet for
the tables relevant to the query. -/
def create_schema_context (schema : DatabaseSchema) (nl_query : String)
    (include_relationships : Bool) (max_tables : Nat) : String :=
  let relevant_tables := get_related_tables_for_query schema nl_query
    include_relationships max_tables
  "Database: " ++ schema.database_name ++ " (" ++ schema.database_type ++
    ")\n" ++
  "Total tables: " ++ toString schema.total_tables ++ "\n" ++
  "Relevant tables (" ++ toString relevant_tables.length ++ "):\n" ++
  build_schema_snippet relevant_tables schema

/-- The `Customer` table of the two-table scenario schema. -/
def customerTable : TableInfo :=
  { name := "Customer"
    columns := [⟨"CustomerId", "INTEGER", ColumnType.INTEGER, false, true,
                  none, none, none, true⟩,
                ⟨"Name", "VARCHAR", ColumnType.VARCHAR, true, false,
                  none, none, none, false⟩]
    primary_keys := ["CustomerId"]
    foreign_keys := [] }

/-- The `Invoice.CustomerId -> Customer.CustomerId` foreign key. -/
def invoiceFK : ForeignKeyRelation :=
  ⟨"Invoice", "CustomerId", "Customer", "CustomerId", none⟩

/-- The `Invoice` table of the two-table scenario schema. -/
def invoiceTable : TableInfo :=
  { name := "Invoice"
    columns := [⟨"InvoiceId", "INTEGER", ColumnType.INTEGER, false, true,
                  none, none, none, true⟩,
                ⟨"CustomerId", "INTEGER", ColumnType.INTEGER, false, false,
                  some "Customer.CustomerId", none, none, false⟩]
    primary_keys := ["InvoiceId"]
    foreign_keys := [invoiceFK] }

/-- The two-table `Customer`/`Invoice` scenario schema of the spec. -/
def chinookSchema : DatabaseSchema :=
  { database_name := "chinook"
    database_type := "sqlite"
    tables := [customerTable, invoiceTable]
    relationships := [invoiceFK]
    total_tables := 2
    extracted_at := "2024-01-01T00:00:00" }

/-! ### Tokenizer facts and the ranking comparison -/

theorem tokenizeChars_ne_nil_of_cur :
    ∀ (cs cur : List Char), cur ≠ [] → tokenizeChars cs cur ≠ [] := by
  intro cs
  induction cs with
  | nil =>
    intro cur h
    unfold tokenizeChars
    rw [if_neg (by simpa using h)]
    simp
  | cons c cs ih =>
    intro cur h
    unfold tokenizeChars
    by_cases hc : isTokenChar c = true
    · rw [if_pos hc]
      exact ih (c :: cur) (by simp)
    · rw [if_neg hc, if_neg (by simpa using h)]
      simp

theorem tokenizeChars_ne_nil :
    ∀ (cs : List Char) (cur : List Char) (c : Char), c ∈ cs →
      isTokenChar c = true → tokenizeChars cs cur ≠ [] := by
  intro cs
  induction cs with
  | nil => intro cur c hc; simp at hc
  | cons a cs ih =>
    intro cur c hc htok
    unfold tokenizeChars
    by_cases ha : isTokenChar a = true
    · rw [if_pos ha]
      exact tokenizeChars_ne_nil_of_cur cs (a :: cur) (by simp)
    · rw [if_neg ha]
      have hc' : c ∈ cs := by
        rcases List.mem_cons.1 hc with rfl | h
        · exact absurd htok ha
        · exact h
      by_cases hcur : cur.isEmpty = true
      · rw [if_pos hcur]
        exact ih [] c hc' htok
      · rw [if_neg hcur]
        simp

theorem tableTokenCount_pos (t : TableInfo) : 1 ≤ tableTokenCount t := by
  have hs : isTokenChar 's' = true := by decide
  have hvocab : table_keywords t ≠ [] := by
    unfold table_keywords
    intro hnil
    have hmem : ∀ x, x ∉ (tokenize t.name ++
        (t.columns.flatMap (fun c => tokenize c.name ++ tokenize c.type)) ++
        (if pyEndsWith t.name "s" then tokenize (t.name.dropRight 1)
         else tokenize (t.name ++ "s"))) := by
      intro x hx
      have := (mem_dedupFirst _ x).2 hx
      rw [hnil] at this
      simp at this
    by_cases hend : pyEndsWith t.name "s" = true
    · have hsuff : ['s'] <:+ t.name.data := by
        have := hend
        unfold pyEndsWith at this
        simpa using (List.isSuffixOf_iff_suffix).1 (by simpa using this)
      obtain ⟨pre, hpre⟩ := hsuff
      have hsin : 's' ∈ t.name.data.map Char.toLower := by
        rw [← hpre]
        simp only [List.map_append, List.mem_append]
        right
        simp
      have := tokenizeChars_ne_nil (t.name.data.map Char.toLower) [] 's' hsin hs
      refine this ?_
      rcases hnil' : tokenize t.name with _ | ⟨x, xs⟩
      · exact hnil'
      · exfalso
        refine hmem x ?_
        rw [hnil']
        simp
    · have hsin : 's' ∈ (t.name ++ "s").data.map Char.toLower := by
        rw [String.data_append]
        simp only [List.map_append, List.mem_append]
        right
        simp [show ("s" : String).data = ['s'] from rfl]
      have := tokenizeChars_ne_nil ((t.name ++ "s").data.map Char.toLower)
        [] 's' hsin hs
      refine this ?_
      rcases hnil' : tokenize (t.name ++ "s") with _ | ⟨x, xs⟩
      · exact hnil'
      · exfalso
        refine hmem x ?_
        rw [if_neg hend]
        refine List.mem_append.2 (Or.inr ?_)
        rw [hnil']
        simp
  have : tableTokenCount t ≠ 0 := by
    unfold tableTokenCount
    intro h0
    rw [List.length_eq_zero] at h0
    obtain ⟨x, hx⟩ := List.exists_mem_of_ne_nil _ hvocab
    have := (mem_dedupFirst (table_keywords t) x).2 hx
    rw [h0] at this
    simp at this
  omega

theorem interCount_le_query (query : String) (t : TableInfo) :
    interCount query t ≤ queryTokenCount query :=
  List.length_filter_le _ _

theorem interCount_le_table (query : String) (t : TableInfo) :
    interCount query t ≤ tableTokenCount t := by
  unfold interCount tableTokenCount
  have hnd : ((dedupFirst (tokenize query)).filter
      (fun tok => decide (tok ∈ table_keywords t))).Nodup :=
    (List.filter_sublist _).nodup (nodup_dedupFirst _)
  have hsub : (dedupFirst (tokenize query)).filter
      (fun tok => decide (tok ∈ table_keywords t)) ⊆
      dedupFirst (table_keywords t) := by
    intro x hx
    have hmem := List.of_mem_filter hx
    rw [mem_dedupFirst]
    simpa using hmem
  exact (List.subperm_of_subset hnd hsub).length_le

theorem keyword_score_formula (query : String) (t : TableInfo) :
    keyword_score query t = (interCount query t : ℝ) /
      Real.sqrt ((queryTokenCount query : ℝ) * (tableTokenCount t : ℝ)) := by
  unfold keyword_score
  by_cases h : queryTokenCount query = 0 ∨ tableTokenCount t = 0
  · rw [if_pos h]
    have hi : interCount query t = 0 := by
      rcases h with h | h
      · have := interCount_le_query query t
        omega
      · have := interCount_le_table query t
        omega
    rw [hi]
    simp
  · rw [if_neg h]

theorem keyword_score_nonneg (query : String) (t : TableInfo) :
    0 ≤ keyword_score query t := by
  rw [keyword_score_formula]
  exact div_nonneg (by positivity) (Real.sqrt_nonneg _)

theorem keyword_score_le_one (query : String) (t : TableInfo) :
    keyword_score query t ≤ 1 := by
  rw [keyword_score_formula]
  by_cases h : queryTokenCount query * tableTokenCount t = 0
  · have hi : interCount query t = 0 := by
      have h1 := interCount_le_query query t
      have h2 := interCount_le_table query t
      rcases Nat.mul_eq_zero.1 h with h' | h' <;> omega
    rw [hi]
    simp
  · have hpos : (0 : ℝ) < (queryTokenCount query : ℝ) * (tableTokenCount t : ℝ) := by
      have : 0 < queryTokenCount query * tableTokenCount t := Nat.pos_of_ne_zero h
      push_cast
      exact_mod_cast this
    rw [div_le_one (Real.sqrt_pos.2 hpos)]
    refine (Real.le_sqrt (by positivity) (le_of_lt hpos)).2 ?_
    have hsq : interCount query t * interCount query t ≤
        queryTokenCount query * tableTokenCount t :=
      Nat.mul_le_mul (interCount_le_query query t) (interCount_le_table query t)
    have := (Nat.cast_le (α := ℝ)).2 hsq
    push_cast at this
    nlinarith [this]

theorem combinedGe_correct (query : String) (a b : TableInfo) :
    combinedGe query a b = true ↔
      combined_score query b 0 ≤ combined_score query a 0 := by
  unfold combinedGe kwRep combined_score
  rw [decide_eq_true_iff]
  rw [keyword_score_formula query a, keyword_score_formula query b]
  have hta := tableTokenCount_pos a
  have htb := tableTokenCount_pos b
  by_cases hq : queryTokenCount query = 0
  · have hia : interCount query a = 0 := by
      have := interCount_le_query query a
      omega
    have hib : interCount query b = 0 := by
      have := interCount_le_query query b
      omega
    rw [hia, hib, hq]
    norm_num
  · have hqpos : 1 ≤ queryTokenCount query := Nat.one_le_iff_ne_zero.2 hq
    have hda : (0 : ℝ) < (queryTokenCount query : ℝ) * (tableTokenCount a : ℝ) := by
      have : 0 < queryTokenCount query * tableTokenCount a :=
        Nat.mul_pos hqpos hta
      exact_mod_cast this
    have hdb : (0 : ℝ) < (queryTokenCount query : ℝ) * (tableTokenCount b : ℝ) := by
      have : 0 < queryTokenCount query * tableTokenCount b :=
        Nat.mul_pos hqpos htb
      exact_mod_cast this
    have hsa := Real.sqrt_pos.2 hda
    have hsb := Real.sqrt_pos.2 hdb
    constructor
    · intro h
      have hcast := (Nat.cast_le (α := ℝ)).2 h
      push_cast at hcast
      have hcross : (interCount query b : ℝ) * Real.sqrt
          ((queryTokenCount query : ℝ) * (tableTokenCount a : ℝ)) ≤
          (interCount query a : ℝ) * Real.sqrt
          ((queryTokenCount query : ℝ) * (tableTokenCount b : ℝ)) := by
        have h2 : ((interCount query b : ℝ) * Real.sqrt
            ((queryTokenCount query : ℝ) * (tableTokenCount a : ℝ))) ^ 2 ≤
            ((interCount query a : ℝ) * Real.sqrt
            ((queryTokenCount query : ℝ) * (tableTokenCount b : ℝ))) ^ 2 := by
          rw [mul_pow, mul_pow, Real.sq_sqrt (le_of_lt hda),
            Real.sq_sqrt (le_of_lt hdb)]
          nlinarith [hcast]
        have hx : (0 : ℝ) ≤ (interCount query b : ℝ) * Real.sqrt
            ((queryTokenCount query : ℝ) * (tableTokenCount a : ℝ)) := by
          positivity
        have hy : (0 : ℝ) ≤ (interCount query a : ℝ) * Real.sqrt
            ((queryTokenCount query : ℝ) * (tableTokenCount b : ℝ)) := by
          positivity
        exact (pow_le_pow_iff_left hx hy (by norm_num)).1 h2
      have := (div_le_div_iff hsb hsa).2 hcross
      nlinarith [this]
    · intro h
      have hdiv : (interCount query b : ℝ) / Real.sqrt
          ((queryTokenCount query : ℝ) * (tableTokenCount b : ℝ)) ≤
          (interCount query a : ℝ) / Real.sqrt
          ((queryTokenCount query : ℝ) * (tableTokenCount a : ℝ)) := by
        nlinarith [h]
      have hcross := (div_le_div_iff hsb hsa).1 hdiv
      have h2 : ((interCount query b : ℝ) * Real.sqrt
          ((queryTokenCount query : ℝ) * (tableTokenCount a : ℝ))) ^ 2 ≤
          ((interCount query a : ℝ) * Real.sqrt
          ((queryTokenCount query : ℝ) * (tableTokenCount b : ℝ))) ^ 2 := by
        have hx : (0 : ℝ) ≤ (interCount query b : ℝ) * Real.sqrt
            ((queryTokenCount query : ℝ) * (tableTokenCount a : ℝ)) := by
          positivity
        exact pow_le_pow_left hx hcross 2
      rw [mul_pow, mul_pow, Real.sq_sqrt (le_of_lt hda),
        Real.sq_sqrt (le_of_lt hdb)] at h2
      have hnat : ((interCount query b * interCount query b) *
          (queryTokenCount query * tableTokenCount a) : ℝ) ≤
          ((interCount query a * interCount query a) *
          (queryTokenCount query * tableTokenCount b) : ℝ) := by
        push_cast
        nlinarith [h2]
      exact_mod_cast hnat

/-- C6 (amended): the keyword score equals
`|q ∩ t| / sqrt(|q| * |t|)`, is 0 when either token set is empty, and lies
in `[0,1]`; the combined score `0.6*keyword + 0.4*semantic` lies in
`[0,1]` whenever the semantic score does (in particular in keyword-only
mode, semantic score 0), and for a semantic score anywhere in `[-1,1]` —
the range of the cosine — it lies in `[-2/5, 1]`. -/
theorem C6_score_bounds :
    ∀ (query : String) (t : TableInfo),
      keyword_score query t = (interCount query t : ℝ) /
        Real.sqrt ((queryTokenCount query : ℝ) * (tableTokenCount t : ℝ)) ∧
      (queryTokenCount query = 0 ∨ tableTokenCount t = 0 →
        keyword_score query t = 0) ∧
      (0 ≤ keyword_score query t ∧ keyword_score query t ≤ 1) ∧
      (∀ emb : ℝ, 0 ≤ emb → emb ≤ 1 →
        0 ≤ combined_score query t emb ∧ combined_score query t emb ≤ 1) ∧
      (∀ emb : ℝ, -1 ≤ emb → emb ≤ 1 →
        -(2 / 5 : ℝ) ≤ combined_score query t emb ∧
        combined_score query t emb ≤ 1) := by
  intro query t
  have hk0 := keyword_score_nonneg query t
  have hk1 := keyword_score_le_one query t
  refine ⟨keyword_score_formula query t, ?_, ⟨hk0, hk1⟩, ?_, ?_⟩
  · intro h
    unfold keyword_score
    rw [if_pos h]
  · intro emb h0 h1
    unfold combined_score
    constructor <;> nlinarith
  · intro emb h0 h1
    unfold combined_score
    constructor <;> nlinarith

/-- A table sharing no tokens with the query `"zzz"`, used to exhibit a
zero keyword score. -/
def plainTable : TableInfo :=
  { name := "t", columns := [], primary_keys := [], foreign_keys := [] }

/-- Counterexample for C6 as frozen: the combined score is not always in
`[0,1]` — with the semantic score produced by `_cosine` on opposite
one-dimensional embedding vectors (cosine `-1`) and a keyword score of 0,
the combined score is `-2/5 < 0`. -/
theorem C6_counterexample :
    cosine [(1 : ℝ)] [(-1 : ℝ)] = -1 ∧
    combined_score "zzz" plainTable (cosine [(1 : ℝ)] [(-1 : ℝ)]) =
      -(2 / 5 : ℝ) ∧
    ¬ (0 ≤ combined_score "zzz" plainTable (cosine [(1 : ℝ)] [(-1 : ℝ)])) := by
  have hcos : cosine [(1 : ℝ)] [(-1 : ℝ)] = -1 := by
    unfold cosine
    rw [if_neg (by norm_num)]
    norm_num [Real.sqrt_one]
  have hkw : keyword_score "zzz" plainTable = 0 := by
    have hi : interCount "zzz" plainTable = 0 := by decide
    unfold keyword_score
    rw [if_neg (by decide)]
    rw [hi]
    simp
  have hcomb : combined_score "zzz" plainTable (cosine [(1 : ℝ)] [(-1 : ℝ)]) =
      -(2 / 5 : ℝ) := by
    unfold combined_score
    rw [hcos, hkw]
    norm_num
  exact ⟨hcos, hcomb, by rw [hcomb]; norm_num⟩

/-- Witness for C6 (amended): the bounds applied at the concrete scenario
query and table with semantic score 0 (keyword-only mode). -/
theorem C6_witness :
    0 ≤ combined_score "show me customers and their invoices"
      customerTable 0 ∧
    combined_score "show me customers and their invoices"
      customerTable 0 ≤ 1 :=
  (C6_score_bounds "show me customers and their invoices"
    customerTable).2.2.2.1 0 (by norm_num) (by norm_num)

/-! ### The relationship expansion loop (C5) -/

theorem addRelated_cons_any (schema : DatabaseSchema) (m : Nat)
    (acc : List TableInfo) (n : String) (ns : List String)
    (h1 : acc.any (fun t => t.name == n) = true) :
    addRelated schema m acc (n :: ns) = addRelated schema m acc ns := by
  rw [addRelated]
  rw [if_pos h1]

theorem addRelated_cons_missing (schema : DatabaseSchema) (m : Nat)
    (acc : List TableInfo) (n : String) (ns : List String)
    (h1 : ¬ acc.any (fun t => t.name == n) = true)
    (hget : schema.get_table n = none) :
    addRelated schema m acc (n :: ns) = addRelated schema m acc ns := by
  rw [addRelated]
  rw [if_neg h1, hget]

theorem addRelated_cons_found (schema : DatabaseSchema) (m : Nat)
    (acc : List TableInfo) (n : String) (ns : List String) (tbl : TableInfo)
    (h1 : ¬ acc.any (fun t => t.name == n) = true)
    (hget : schema.get_table n = some tbl) :
    addRelated schema m acc (n :: ns) =
      if acc.length < m then addRelated schema m (acc ++ [tbl]) ns
      else addRelated schema m acc ns := by
  rw [addRelated]
  rw [if_neg h1, hget]

theorem addRelated_extends (schema : DatabaseSchema) (m : Nat) :
    ∀ (ns : List String) (acc : List TableInfo) (t : TableInfo),
      t ∈ acc → t ∈ addRelated schema m acc ns := by
  intro ns
  induction ns with
  | nil => intro acc t ht; exact ht
  | cons n ns ih =>
    intro acc t ht
    by_cases h1 : acc.any (fun t => t.name == n) = true
    · rw [addRelated_cons_any schema m acc n ns h1]
      exact ih acc t ht
    · rcases hget : schema.get_table n with _ | tbl
      · rw [addRelated_cons_missing schema m acc n ns h1 hget]
        exact ih acc t ht
      · rw [addRelated_cons_found schema m acc n ns tbl h1 hget]
        by_cases h2 : acc.length < m
        · rw [if_pos h2]
          exact ih _ t (List.mem_append.2 (Or.inl ht))
        · rw [if_neg h2]
          exact ih acc t ht

theorem addRelated_length_le (schema : DatabaseSchema) (m : Nat) :
    ∀ (ns : List String) (acc : List TableInfo), acc.length ≤ m →
      (addRelated schema m acc ns).length ≤ m := by
  intro ns
  induction ns with
  | nil => intro acc h; exact h
  | cons n ns ih =>
    intro acc h
    by_cases h1 : acc.any (fun t => t.name == n) = true
    · rw [addRelated_cons_any schema m acc n ns h1]; exact ih acc h
    · rcases hget : schema.get_table n with _ | tbl
      · rw [addRelated_cons_missing schema m acc n ns h1 hget]
        exact ih acc h
      · rw [addRelated_cons_found schema m acc n ns tbl h1 hget]
        by_cases h2 : acc.length < m
        · rw [if_pos h2]
          refine ih _ ?_
          rw [List.length_append]
          simpa using h2
        · rw [if_neg h2]
          exact ih acc h

theorem addRelated_cap (schema : DatabaseSchema) (m : Nat) :
    ∀ (ns : List String) (acc : List TableInfo), acc.length = m →
      addRelated schema m acc ns = acc := by
  intro ns
  induction ns with
  | nil => intro acc _; rfl
  | cons n ns ih =>
    intro acc h
    by_cases h1 : acc.any (fun t => t.name == n) = true
    · rw [addRelated_cons_any schema m acc n ns h1]; exact ih acc h
    · rcases hget : schema.get_table n with _ | tbl
      · rw [addRelated_cons_missing schema m acc n ns h1 hget]
        exact ih acc h
      · rw [addRelated_cons_found schema m acc n ns tbl h1 hget]
        rw [if_neg (by omega)]
        exact ih acc h

theorem addRelated_covers (schema : DatabaseSchema) (m : Nat) :
    ∀ (ns : List String) (acc : List TableInfo), acc.length ≤ m →
      ∀ n ∈ ns,
        (∃ t ∈ addRelated schema m acc ns, t.name = n) ∨
        (∃ t, schema.get_table n = some t ∧ t ∈ addRelated schema m acc ns) ∨
        schema.get_table n = none ∨
        (addRelated schema m acc ns).length = m := by
  intro ns
  induction ns with
  | nil => intro acc _ n hn; simp at hn
  | cons n' ns ih =>
    intro acc hlen n hn
    rcases List.mem_cons.1 hn with rfl | htail
    · by_cases h1 : acc.any (fun t => t.name == n) = true
      · rw [addRelated_cons_any schema m acc n ns h1]
        obtain ⟨t, ht, hname⟩ := List.any_eq_true.1 h1
        refine Or.inl ⟨t, addRelated_extends schema m ns acc t ht, ?_⟩
        simpa using hname
      · rcases hget : schema.get_table n with _ | tbl
        · exact Or.inr (Or.inr (Or.inl rfl))
        · rw [addRelated_cons_found schema m acc n ns tbl h1 hget]
          by_cases h2 : acc.length < m
          · rw [if_pos h2]
            refine Or.inr (Or.inl ⟨tbl, rfl, ?_⟩)
            refine addRelated_extends schema m ns _ tbl ?_
            exact List.mem_append.2 (Or.inr (List.mem_singleton.2 rfl))
          · rw [if_neg h2]
            have hm : acc.length = m := by omega
            rw [addRelated_cap schema m ns acc hm]
            exact Or.inr (Or.inr (Or.inr hm))
    · by_cases h1 : acc.any (fun t => t.name == n') = true
      · rw [addRelated_cons_any schema m acc n' ns h1]
        exact ih acc hlen n htail
      · rcases hget : schema.get_table n' with _ | tbl
        · rw [addRelated_cons_missing schema m acc n' ns h1 hget]
          exact ih acc hlen n htail
        · rw [addRelated_cons_found schema m acc n' ns tbl h1 hget]
          by_cases h2 : acc.length < m
          · rw [if_pos h2]
            refine ih _ ?_ n htail
            rw [List.length_append]
            simpa using h2
          · rw [if_neg h2]
            exact ih acc hlen n htail

/-- C5: with `include_relationships = true`, every table directly
foreign-key-adjacent (in either direction) to a table of the initial
top-ranked selection ends up in the returned list — except that the
`max_tables` bound is respected: a missing addition forces the result to
be at the bound (and the result never exceeds it).  Tables whose name is
not resolvable in the schema are skipped, matching the source. -/
theorem C5_relationship_expansion :
    ∀ (schema : DatabaseSchema) (nl_query : String) (max_tables : Nat),
      (get_related_tables_for_query schema nl_query true max_tables).length ≤
        max_tables ∧
      ∀ n ∈ relatedNames schema
          (select_relevant_tables schema nl_query max_tables),
        (∃ t ∈ get_related_tables_for_query schema nl_query true max_tables,
          t.name = n) ∨
        (∃ t, schema.get_table n = some t ∧
          t ∈ get_related_tables_for_query schema nl_query true max_tables) ∨
        schema.get_table n = none ∨
        (get_related_tables_for_query schema nl_query true max_tables).length
          = max_tables := by
  intro schema nl_query max_tables
  have hinit : (select_relevant_tables schema nl_query max_tables).length ≤
      max_tables := by
    unfold select_relevant_tables
    simpa using List.length_take_le max_tables _
  constructor
  · unfold get_related_tables_for_query
    rw [if_pos rfl]
    exact addRelated_length_le schema max_tables _ _ hinit
  · intro n hn
    unfold get_related_tables_for_query
    rw [if_pos rfl]
    exact addRelated_covers schema max_tables _ _ hinit n hn

/-- Witness for C5: in the two-table scenario schema, `Customer` is
adjacent to the selected `Invoice` and indeed appears in the returned
list. -/
theorem C5_witness :
    "Customer" ∈ relatedNames chinookSchema
      (select_relevant_tables chinookSchema
        "show me customers and their invoices" 8) ∧
    ((∃ t ∈ get_related_tables_for_query chinookSchema
        "show me customers and their invoices" true 8, t.name = "Customer") ∨
      (∃ t, chinookSchema.get_table "Customer" = some t ∧
        t ∈ get_related_tables_for_query chinookSchema
          "show me customers and their invoices" true 8) ∨
      chinookSchema.get_table "Customer" = none ∨
      (get_related_tables_for_query chinookSchema
        "show me customers and their invoices" true 8).length = 8) := by
  refine ⟨by decide, ?_⟩
  exact (C5_relationship_expansion chinookSchema
    "show me customers and their invoices" 8).2 "Customer" (by decide)

set_option maxRecDepth 8192 in
/-- C7: over the two-table `Customer`/`Invoice` schema, ranking the query
"show me customers and their invoices" with `top_k = 8` selects both
tables, and the assembled schema context contains the join line
`joins Customer ON Invoice.CustomerId = Customer.CustomerId`. -/
theorem C7_customer_invoice_scenario :
    (∃ t ∈ get_related_tables_for_query chinookSchema
      "show me customers and their invoices" true 8, t.name = "Customer") ∧
    (∃ t ∈ get_related_tables_for_query chinookSchema
      "show me customers and their invoices" true 8, t.name = "Invoice") ∧
    "  joins Customer ON Invoice.CustomerId = Customer.CustomerId" ∈
      snippetLines (get_related_tables_for_query chinookSchema
        "show me customers and their invoices" true 8) ∧
    create_schema_context chinookSchema
        "show me customers and their invoices" true 8 =
      "Database: chinook (sqlite)\nTotal tables: 2\n" ++
      "Relevant tables (2):\n" ++
      String.intercalate "\n" (snippetLines (get_related_tables_for_query
        chinookSchema "show me customers and their invoices" true 8)) := by
  refine ⟨⟨customerTable, by decide, rfl⟩, ⟨invoiceTable, by decide, rfl⟩,
    by decide, by decide⟩

/-! ## Hash primitives

`generate_schema_hash` uses `hashlib.sha256` and the cache keying uses
`hashlib.md5`; both are implemented here over byte lists (`Nat` values
below 256), with `Char.toNat` as the UTF-8 byte of an ASCII character. -/

/-- Truncate to a 32-bit word. -/
def w32 (x : Nat) : Nat := x % 4294967296

/-- 32-bit right rotation. -/
def rotr32 (n x : Nat) : Nat := w32 ((x >>> n) ||| (x <<< (32 - n)))

/-- 32-bit left rotation. -/
def rotl32 (n x : Nat) : Nat := w32 ((x <<< n) ||| (x >>> (32 - n)))

/-- 32-bit complement. -/
def not32 (x : Nat) : Nat := x ^^^ 4294967295

/-- Big-endian bytes of a 64-bit length field. -/
def be8 (n : Nat) : List Nat :=
  (List.range 8).map (fun i => (n >>> (56 - 8 * i)) % 256)

/-- Little-endian bytes of a 64-bit length field. -/
def le8 (n : Nat) : List Nat :=
  (List.range 8).map (fun i => (n >>> (8 * i)) % 256)

/-- Merkle–Damgård padding: `0x80`, zeros to 56 mod 64, then the bit
length in the given byte order. -/
def mdPad (lenBytes : List Nat) (msg : List Nat) : List Nat :=
  let len := msg.length
  let zeros := (64 + 56 - ((len + 1) % 64)) % 64
  msg ++ [128] ++ List.replicate zeros 0 ++ lenBytes

/-- Big-endian 32-bit words of a byte list. -/
def bytesToWordsBE : List Nat → List Nat
  | b0 :: b1 :: b2 :: b3 :: rest =>
    (((b0 * 256 + b1) * 256 + b2) * 256 + b3) :: bytesToWordsBE rest
  | _ => []

/-- Little-endian 32-bit words of a byte list. -/
def bytesToWordsLE : List Nat → List Nat
  | b0 :: b1 :: b2 :: b3 :: rest =>
    (((b3 * 256 + b2) * 256 + b1) * 256 + b0) :: bytesToWordsLE rest
  | _ => []

/-- One lowercase hex digit. -/
def hexDigit (n : Nat) : Char :=
  "0123456789abcdef".data.getD n '0'

/-- Eight hex digits of a 32-bit word, most significant first. -/
def toHex8 (x : Nat) : String :=
  String.mk ((List.range 8).map (fun i => hexDigit ((x >>> (28 - 4 * i)) % 16)))

/-- Two hex digits of a byte. -/
def byteHex (b : Nat) : String :=
  String.mk [hexDigit (b / 16), hexDigit (b % 16)]

/-- The SHA-256 round constants. -/
def sha256K : List Nat :=
  [1116352408, 1899447441, 3049323471, 3921009573, 961987163, 1508970993,
   2453635748, 2870763221, 3624381080, 310598401, 607225278, 1426881987,
   1925078388, 2162078206, 2614888103, 3248222580, 3835390401, 4022224774,
   264347078, 604807628, 770255983, 1249150122, 1555081692, 1996064986,
   2554220882, 2821834349, 2952996808, 3210313671, 3336571891, 3584528711,
   113926993, 338241895, 666307205, 773529912, 1294757372, 1396182291,
   1695183700, 1986661051, 2177026350, 2456956037, 2730485921, 2820302411,
   3259730800, 3345764771, 3516065817, 3600352804, 4094571909, 275423344,
   430227734, 506948616, 659060556, 883997877, 958139571, 1322822218,
   1537002063, 1747873779, 1955562222, 2024104815, 2227730452, 2361852424,
   2428436474, 2756734187, 3204031479, 3329325298]

/-- The SHA-256 initial hash value. -/
def sha256H0 : List Nat :=
  [1779033703, 3144134277, 1013904242, 2773480762, 1359893119, 2600822924,
   528734635, 1541459225]

/-- Message-schedule extension: append `n` further words. -/
def extendW : List Nat → Nat → List Nat
  | ws, 0 => ws
  | ws, n + 1 =>
    let len := ws.length
    let w15 := ws.getD (len - 15) 0
    let w2 := ws.getD (len - 2) 0
    let s0 := rotr32 7 w15 ^^^ rotr32 18 w15 ^^^ (w15 >>> 3)
    let s1 := rotr32 17 w2 ^^^ rotr32 19 w2 ^^^ (w2 >>> 10)
    extendW (ws ++ [w32 (ws.getD (len - 16) 0 + s0 + ws.getD (len - 7) 0 + s1)]) n

/-- One SHA-256 round on the eight-word working state. -/
def sha256Step (st : List Nat) (kw : Nat × Nat) : List Nat :=
  let a := st.getD 0 0
  let b := st.getD 1 0
  let c := st.getD 2 0
  let d := st.getD 3 0
  let e := st.getD 4 0
  let f := st.getD 5 0
  let g := st.getD 6 0
  let h := st.getD 7 0
  let s1 := rotr32 6 e ^^^ rotr32 11 e ^^^ rotr32 25 e
  let ch := (e &&& f) ^^^ (not32 e &&& g)
  let temp1 := w32 (h + s1 + ch + kw.1 + kw.2)
  let s0 := rotr32 2 a ^^^ rotr32 13 a ^^^ rotr32 22 a
  let maj := (a &&& b) ^^^ (a &&& c) ^^^ (b &&& c)
  let temp2 := w32 (s0 + maj)
  [w32 (temp1 + temp2), a, b, c, w32 (d + temp1), e, f, g]

/-- Compress one 16-word block into the running hash. -/
def sha256Compress (h : List Nat) (block : List Nat) : List Nat :=
  let w := extendW block 48
  let st := (List.zip sha256K w).foldl sha256Step h
  (List.zip h st).map (fun p => w32 (p.1 + p.2))

/-- Process the 16-word blocks of the padded message (the fuel is an upper
bound on the number of blocks). -/
def sha256Outer : Nat → List Nat → List Nat → List Nat
  | 0, _, h => h
  | _ + 1, [], h => h
  | fuel + 1, ws, h => sha256Outer fuel (ws.drop 16) (sha256Compress h (ws.take 16))

/-- SHA-256 of a byte list, as 64 lowercase hex digits
(`hashlib.sha256(...).hexdigest()`). -/
def sha256hex (msg : List Nat) : String :=
  let ws := bytesToWordsBE (mdPad (be8 (msg.length * 8)) msg)
  String.join ((sha256Outer ws.length ws sha256H0).map toHex8)

/-- The MD5 per-round shift amounts. -/
def md5S : List Nat :=
  [7, 12, 17, 22, 7, 12, 17, 22, 7, 12, 17, 22, 7, 12, 17, 22,
   5, 9, 14, 20, 5, 9, 14, 20, 5, 9, 14, 20, 5, 9, 14, 20,
   4, 11, 16, 23, 4, 11, 16, 23, 4, 11, 16, 23, 4, 11, 16, 23,
   6, 10, 15, 21, 6, 10, 15, 21, 6, 10, 15, 21, 6, 10, 15, 21]

/-- The MD5 sine-derived additive constants. -/
def md5K : List Nat :=
  [3614090360, 3905402710, 606105819, 3250441966, 4118548399, 1200080426,
   2821735955, 4249261313, 1770035416, 2336552879, 4294925233, 2304563134,
   1804603682, 4254626195, 2792965006, 1236535329, 4129170786, 3225465664,
   643717713, 3921069994, 3593408605, 38016083, 3634488961, 3889429448,
   568446438, 3275163606, 4107603335, 1163531501, 2850285829, 4243563512,
   1735328473, 2368359562, 4294588738, 2272392833, 1839030562, 4259657740,
   2763975236, 1272893353, 4139469664, 3200236656, 681279174, 3936430074,
   3572445317, 76029189, 3654602809, 3873151461, 530742520, 3299628645,
   4096336452, 1126891415, 2878612391, 4237533241, 1700485571, 2399980690,
   4293915773, 2240044497, 1873313359, 4264355552, 2734768916, 1309151649,
   4149444226, 3174756917, 718787259, 3951481745]

/-- The MD5 initial state. -/
def md5H0 : List Nat := [1732584193, 4023233417, 2562383102, 271733878]

/-- The MD5 round function for step `i`. -/
def md5F (i b c d : Nat) : Nat :=
  if i < 16 then (b &&& c) ||| (not32 b &&& d)
  else if i < 32 then (d &&& b) ||| (not32 d &&& c)
  else if i < 48 then b ^^^ c ^^^ d
  else c ^^^ (b ||| not32 d)

/-- The MD5 message-word index for step `i`. -/
def md5g (i : Nat) : Nat :=
  if i < 16 then i
  else if i < 32 then (5 * i + 1) % 16
  else if i < 48 then (3 * i + 5) % 16
  else (7 * i) % 16

/-- One MD5 step on the four-word state. -/
def md5Step (m : List Nat) (st : List Nat) (i : Nat) : List Nat :=
  let a := st.getD 0 0
  let b := st.getD 1 0
  let c := st.getD 2 0
  let d := st.getD 3 0
  let f := w32 (md5F i b c d + a + md5K.getD i 0 + m.getD (md5g i) 0)
  [d, w32 (b + rotl32 (md5S.getD i 0) f), b, c]

/-- Compress one 16-word block into the running MD5 state. -/
def md5Compress (h : List Nat) (block : List Nat) : List Nat :=
  let st := (List.range 64).foldl (md5Step block) h
  (List.zip h st).map (fun p => w32 (p.1 + p.2))

/-- Process the 16-word blocks of the padded message. -/
def md5Outer : Nat → List Nat → List Nat → List Nat
  | 0, _, h => h
  | _ + 1, [], h => h
  | fuel + 1, ws, h => md5Outer fuel (ws.drop 16) (md5Compress h (ws.take 16))

/-- The four little-endian bytes of a state word. -/
def md5WordBytes (x : Nat) : List Nat :=
  (List.range 4).map (fun i => (x >>> (8 * i)) % 256)

/-- MD5 of a byte list, as 32 lowercase hex digits
(`hashlib.md5(...).hexdigest()`). -/
def md5hex (msg : List Nat) : String :=
  let ws := bytesToWordsLE (mdPad (le8 (msg.length * 8)) msg)
  String.join (((md5Outer ws.length ws md5H0).flatMap md5WordBytes).map byteHex)

/-- The UTF-8 bytes of an ASCII string (`str.encode()`); every string fed
to the hashes in this development is ASCII, where the code points are the
bytes. -/
def strBytes (s : String) : List Nat := s.data.map Char.toNat

/-! ## Schema hashing (`generate_schema_hash` in
`app/utils/schema_analyzer.py`) -/

/-- Lexicographic comparison of character lists by code point — Python's
string order. -/
def charListLe : List Char → List Char → Bool
  | [], _ => true
  | _ :: _, [] => false
  | a :: as, b :: bs =>
    if a < b then true
    else if b < a then false
    else charListLe as bs

/-- Python `a <= b` on strings. -/
def strLe (a b : String) : Bool :=
  charListLe a.data b.data

/-- Python `a < b` on strings (`<=` and distinct, in a total order). -/
def strLt (a b : String) : Bool :=
  strLe a b && !(a == b)

/-- Sort key comparison for tables (`key=lambda x: x.name`). -/
def tableLe (a b : TableInfo) : Bool :=
  strLe a.name b.name

/-- Sort key comparison for columns (`key=lambda x: x.name`). -/
def colLe (a b : ColumnInfo) : Bool :=
  strLe a.name b.name

/-- Sort key comparison for foreign keys: Python's lexicographic tuple
order on `(from_table, to_table)`. -/
def fkLe (a b : ForeignKeyRelation) : Bool :=
  strLt a.from_table b.from_table ||
    (a.from_table == b.from_table && strLe a.to_table b.to_table)

/-- The three serialized fields of one column. -/
def colFields (col : ColumnInfo) : List String :=
  [col.name, col.type, if col.nullable then "1" else "0"]

/-- The four serialized fields of one foreign key. -/
def fkFields (fk : ForeignKeyRelation) : List String :=
  [fk.from_table, fk.to_table, fk.from_column, fk.to_column]

/-- The `hash_input` items contributed by one table: its name, its
columns sorted by name, its foreign keys sorted by
`(from_table, to_table)`. -/
def tableChunk (table : TableInfo) : List String :=
  [table.name] ++
  ((pySorted colLe table.columns).flatMap colFields) ++
  ((pySorted fkLe table.foreign_keys).flatMap fkFields)

/-- The full `hash_input` list: per-table chunks for the tables sorted by
name. -/
def hashInput (schema : DatabaseSchema) : List String :=
  (pySorted tableLe schema.tables).flatMap tableChunk

/-- `generate_schema_hash`: the first 16 hex digits of the SHA-256 of the
`"|"`-joined `hash_input`. -/
def generate_schema_hash (schema : DatabaseSchema) : String :=
  String.mk
    ((sha256hex (strBytes (String.intercalate "|" (hashInput schema)))).data.take 16)

/-- Two foreign keys of one table sharing the sort key `("A", "B")` but
relating different columns; their relative order is therefore preserved by
the stable sort and leaks into the hash. -/
def fkAxBu : ForeignKeyRelation := ⟨"A", "x", "B", "u", none⟩

/-- The second tied foreign key (`A.y -> B.v`). -/
def fkAyBv : ForeignKeyRelation := ⟨"A", "y", "B", "v", none⟩

/-- One-table schema recording the tied foreign keys in one order. -/
def hashTiesSchema1 : DatabaseSchema :=
  { database_name := "d", database_type := "sqlite",
    tables := [⟨"A", [], [], [fkAxBu, fkAyBv], none, none⟩],
    relationships := [fkAxBu, fkAyBv], total_tables := 1,
    extracted_at := "2024-01-01T00:00:00" }

/-- The same logical schema with the tied foreign keys permuted. -/
def hashTiesSchema2 : DatabaseSchema :=
  { database_name := "d", database_type := "sqlite",
    tables := [⟨"A", [], [], [fkAyBv, fkAxBu], none, none⟩],
    relationships := [fkAyBv, fkAxBu], total_tables := 1,
    extracted_at := "2024-01-01T00:00:00" }

set_option maxRecDepth 40000 in
/-- Counterexample for C4 as frozen: two schemas representing the same
logical schema (same single table, foreign-key lists permutations of each
other) whose hashes differ, because the two foreign keys share the sort
key `(from_table, to_table)` and the stable sort preserves their input
order in the serialization. -/
theorem C4_counterexample :
    (∃ t1 t2, hashTiesSchema1.tables = [t1] ∧ hashTiesSchema2.tables = [t2] ∧
      t1.name = t2.name ∧ t1.columns.Perm t2.columns ∧
      t1.foreign_keys.Perm t2.foreign_keys) ∧
    generate_schema_hash hashTiesSchema1 ≠ generate_schema_hash hashTiesSchema2 := by
  refine ⟨⟨⟨"A", [], [], [fkAxBu, fkAyBv], none, none⟩,
    ⟨"A", [], [], [fkAyBv, fkAxBu], none, none⟩, rfl, rfl, rfl, List.Perm.refl _, ?_⟩, ?_⟩
  · exact List.Perm.swap _ _ _
  · decide

/-! ### Order facts for the sort keys (C4) -/

theorem charListLe_cons (x y : Char) (xs ys : List Char) :
    charListLe (x :: xs) (y :: ys) =
      if x < y then true else if y < x then false else charListLe xs ys := by
  rw [charListLe]

theorem charListLe_total : ∀ a b : List Char,
    charListLe a b = true ∨ charListLe b a = true := by
  intro a
  induction a with
  | nil => intro b; left; rfl
  | cons x xs ih =>
    intro b
    cases b with
    | nil => right; rfl
    | cons y ys =>
      rw [charListLe_cons, charListLe_cons]
      rcases lt_trichotomy x y with h | h | h
      · left
        rw [if_pos h]
      · subst h
        simp only [if_neg (lt_irrefl x)]
        exact ih ys
      · right
        rw [if_pos h]

theorem charListLe_trans : ∀ a b c : List Char, charListLe a b = true →
    charListLe b c = true → charListLe a c = true := by
  intro a
  induction a with
  | nil => intro b c _ _; rfl
  | cons x xs ih =>
    intro b c hab hbc
    cases b with
    | nil => simp [charListLe] at hab
    | cons y ys =>
      cases c with
      | nil => simp [charListLe] at hbc
      | cons z zs =>
        rw [charListLe_cons] at hab hbc ⊢
        rcases lt_trichotomy x y with hxy | hxy | hxy
        · rcases lt_trichotomy y z with hyz | hyz | hyz
          · rw [if_pos (lt_trans hxy hyz)]
          · subst hyz
            rw [if_pos hxy]
          · rw [if_neg (not_lt.2 (le_of_lt hyz)), if_pos hyz] at hbc
            simp at hbc
        · subst hxy
          rcases lt_trichotomy x z with hyz | hyz | hyz
          · rw [if_pos hyz]
          · subst hyz
            rw [if_neg (lt_irrefl x), if_neg (lt_irrefl x)] at hab hbc ⊢
            exact ih ys zs hab hbc
          · rw [if_neg (not_lt.2 (le_of_lt hyz)), if_pos hyz] at hbc
            simp at hbc
        · rw [if_neg (not_lt.2 (le_of_lt hxy)), if_pos hxy] at hab
          simp at hab

theorem charListLe_antisymm : ∀ a b : List Char, charListLe a b = true →
    charListLe b a = true → a = b := by
  intro a
  induction a with
  | nil =>
    intro b _ hba
    cases b with
    | nil => rfl
    | cons y ys => simp [charListLe] at hba
  | cons x xs ih =>
    intro b hab hba
    cases b with
    | nil => simp [charListLe] at hab
    | cons y ys =>
      rw [charListLe_cons] at hab hba
      rcases lt_trichotomy x y with hxy | hxy | hxy
      · rw [if_neg (not_lt.2 (le_of_lt hxy)), if_pos hxy] at hba
        simp at hba
      · subst hxy
        rw [if_neg (lt_irrefl x), if_neg (lt_irrefl x)] at hab hba
        rw [ih ys hab hba]
      · rw [if_neg (not_lt.2 (le_of_lt hxy)), if_pos hxy] at hab
        simp at hab

theorem strLe_total (a b : String) : strLe a b = true ∨ strLe b a = true :=
  charListLe_total a.data b.data

theorem strLe_trans {a b c : String} (h1 : strLe a b = true)
    (h2 : strLe b c = true) : strLe a c = true :=
  charListLe_trans a.data b.data c.data h1 h2

theorem strLe_antisymm {a b : String} (h1 : strLe a b = true)
    (h2 : strLe b a = true) : a = b := by
  have hd := charListLe_antisymm a.data b.data h1 h2
  cases a with
  | mk da =>
    cases b with
    | mk db =>
      simp only at hd
      rw [hd]

theorem strLt_iff {a b : String} :
    strLt a b = true ↔ strLe a b = true ∧ a ≠ b := by
  unfold strLt
  rw [Bool.and_eq_true, Bool.not_eq_true', beq_eq_false_iff_ne]

theorem fkLe_iff {a b : ForeignKeyRelation} :
    fkLe a b = true ↔ strLt a.from_table b.from_table = true ∨
      (a.from_table = b.from_table ∧ strLe a.to_table b.to_table = true) := by
  unfold fkLe
  rw [Bool.or_eq_true, Bool.and_eq_true, beq_iff_eq]

theorem fkLe_total (a b : ForeignKeyRelation) :
    fkLe a b = true ∨ fkLe b a = true := by
  rw [fkLe_iff, fkLe_iff]
  by_cases hf : a.from_table = b.from_table
  · rcases strLe_total a.to_table b.to_table with h | h
    · exact Or.inl (Or.inr ⟨hf, h⟩)
    · exact Or.inr (Or.inr ⟨hf.symm, h⟩)
  · rcases strLe_total a.from_table b.from_table with h | h
    · exact Or.inl (Or.inl (strLt_iff.2 ⟨h, hf⟩))
    · exact Or.inr (Or.inl (strLt_iff.2 ⟨h, fun hc => hf hc.symm⟩))

theorem fkLe_trans {a b c : ForeignKeyRelation} (h1 : fkLe a b = true)
    (h2 : fkLe b c = true) : fkLe a c = true := by
  rw [fkLe_iff] at h1 h2 ⊢
  rcases h1 with h1 | ⟨he1, ht1⟩ <;> rcases h2 with h2 | ⟨he2, ht2⟩
  · obtain ⟨hle1, hne1⟩ := strLt_iff.1 h1
    obtain ⟨hle2, hne2⟩ := strLt_iff.1 h2
    refine Or.inl (strLt_iff.2 ⟨strLe_trans hle1 hle2, fun hc => ?_⟩)
    rw [hc] at hle1
    exact hne2 (strLe_antisymm hle2 hle1)
  · rw [← he2]
    exact Or.inl h1
  · rw [he1]
    exact Or.inl h2
  · exact Or.inr ⟨he1.trans he2, strLe_trans ht1 ht2⟩

theorem fkLe_key_antisymm {a b : ForeignKeyRelation} (h1 : fkLe a b = true)
    (h2 : fkLe b a = true) :
    a.from_table = b.from_table ∧ a.to_table = b.to_table := by
  rw [fkLe_iff] at h1 h2
  rcases h1 with h1 | ⟨he1, ht1⟩ <;> rcases h2 with h2 | ⟨he2, ht2⟩
  · obtain ⟨hle1, hne1⟩ := strLt_iff.1 h1
    obtain ⟨hle2, _⟩ := strLt_iff.1 h2
    exact absurd (strLe_antisymm hle1 hle2) hne1
  · obtain ⟨_, hne1⟩ := strLt_iff.1 h1
    exact absurd he2.symm hne1
  · obtain ⟨_, hne2⟩ := strLt_iff.1 h2
    exact absurd he1.symm hne2
  · exact ⟨he1, strLe_antisymm ht1 ht2⟩

/-! ### Permutation invariance of the hash under duplicate-free sort keys -/

theorem colLe_total (a b : ColumnInfo) : colLe a b = true ∨ colLe b a = true :=
  strLe_total a.name b.name

theorem colLe_trans (a b c : ColumnInfo) (h1 : colLe a b = true)
    (h2 : colLe b c = true) : colLe a c = true :=
  strLe_trans h1 h2

/-- The serialization data a table contributes, keyed by its name: the
comparator used to order tables reads only this pair's first component. -/
def tblKey (t : TableInfo) : String × List String :=
  (t.name, tableChunk t)

/-- Comparison of table keys by name, mirroring `tableLe` through
`tblKey`. -/
def pairLe (p q : String × List String) : Bool :=
  strLe p.1 q.1

theorem pairLe_total (p q : String × List String) :
    pairLe p q = true ∨ pairLe q p = true :=
  strLe_total p.1 q.1

theorem pairLe_trans (p q r : String × List String) (h1 : pairLe p q = true)
    (h2 : pairLe q r = true) : pairLe p r = true :=
  strLe_trans h1 h2

theorem insertPy_map {α β : Type} (f : α → β) (le : α → α → Bool)
    (le' : β → β → Bool) (hc : ∀ a b, le' (f a) (f b) = le a b) (x : α) :
    ∀ l : List α, (insertPy le x l).map f = insertPy le' (f x) (l.map f) := by
  intro l
  induction l with
  | nil => rfl
  | cons y ys ih =>
    by_cases h : le y x = true
    · rw [insertPy, if_pos h]
      simp only [List.map_cons]
      rw [insertPy, hc y x, if_pos h, ih]
    · rw [insertPy, if_neg h]
      simp only [List.map_cons]
      rw [insertPy, hc y x, if_neg h]

theorem pySorted_map_aux {α β : Type} (f : α → β) (le : α → α → Bool)
    (le' : β → β → Bool) (hc : ∀ a b, le' (f a) (f b) = le a b) :
    ∀ (l acc : List α),
      (l.foldl (fun acc x => insertPy le x acc) acc).map f =
        (l.map f).foldl (fun acc x => insertPy le' x acc) (acc.map f) := by
  intro l
  induction l with
  | nil => intro acc; rfl
  | cons a l ih =>
    intro acc
    simp only [List.foldl_cons, List.map_cons]
    rw [ih, insertPy_map f le le' hc a acc]

/-- Sorting commutes with mapping when the target comparator agrees with
the source comparator through the map. -/
theorem pySorted_map {α β : Type} (f : α → β) (le : α → α → Bool)
    (le' : β → β → Bool) (hc : ∀ a b, le' (f a) (f b) = le a b)
    (l : List α) : (pySorted le l).map f = pySorted le' (l.map f) := by
  simpa [pySorted] using pySorted_map_aux f le le' hc l []

/-- Two sorted permutations of each other are equal, given antisymmetry of
the comparator on the elements actually present. -/
theorem sorted_perm_unique {α : Type} {le : α → α → Bool} :
    ∀ {l1 l2 : List α}, l1.Perm l2 →
      l1.Pairwise (fun a b => le a b = true) →
      l2.Pairwise (fun a b => le a b = true) →
      (∀ a ∈ l1, ∀ b ∈ l1, le a b = true → le b a = true → a = b) →
      l1 = l2 := by
  intro l1
  induction l1 with
  | nil =>
    intro l2 hp _ _ _
    exact hp.symm.eq_nil.symm
  | cons x xs ih =>
    intro l2 hp h1 h2 hanti
    cases l2 with
    | nil => exact absurd hp.eq_nil (by simp)
    | cons y ys =>
      obtain ⟨hx1, hxs1⟩ := List.pairwise_cons.1 h1
      obtain ⟨hy2, hys2⟩ := List.pairwise_cons.1 h2
      have hxy : x = y := by
        have hy_mem : y ∈ x :: xs := hp.mem_iff.2 (by simp)
        rcases List.mem_cons.1 hy_mem with h | hym
        · exact h.symm
        · have hx_mem : x ∈ y :: ys := hp.mem_iff.1 (by simp)
          rcases List.mem_cons.1 hx_mem with h | hxm
          · exact h
          · exact hanti x (by simp) y (List.mem_cons_of_mem _ hym)
              (hx1 y hym) (hy2 x hxm)
      subst hxy
      have htail := ih hp.cons_inv hxs1 hys2
        (fun a ha b hb => hanti a (List.mem_cons_of_mem _ ha) b
          (List.mem_cons_of_mem _ hb))
      rw [htail]

theorem forall2_map_eq {α β : Type} {R : α → α → Prop} {f : α → β} :
    ∀ {l1 l2 : List α}, List.Forall₂ R l1 l2 →
      (∀ a ∈ l1, ∀ b, R a b → f a = f b) → l1.map f = l2.map f := by
  intro l1 l2 h
  induction h with
  | nil => intro _; rfl
  | cons hr hrest ih =>
    intro hf
    simp only [List.map_cons]
    rw [hf _ (by simp) _ hr,
      ih (fun a ha b hb => hf a (List.mem_cons_of_mem _ ha) b hb)]

/-- Equivalent tables with duplicate-free sort keys serialize to the same
chunk: the stable sorts of the column and foreign-key lists coincide once
no two columns share a name and no two foreign keys share the
`(from_table, to_table)` key. -/
theorem tableChunk_eq {t1 t2 : TableInfo} (hn : t1.name = t2.name)
    (hc : t1.columns.Perm t2.columns)
    (hk : t1.foreign_keys.Perm t2.foreign_keys)
    (hcn : (t1.columns.map (fun c => c.name)).Nodup)
    (hfn : (t1.foreign_keys.map
      (fun fk => (fk.from_table, fk.to_table))).Nodup) :
    tableChunk t1 = tableChunk t2 := by
  have hcols : pySorted colLe t1.columns = pySorted colLe t2.columns := by
    refine sorted_perm_unique
      ((pySorted_perm _ _).trans (hc.trans (pySorted_perm _ _).symm))
      (pySorted_sorted colLe_total colLe_trans _)
      (pySorted_sorted colLe_total colLe_trans _) ?_
    intro a ha b hb hab hba
    exact List.inj_on_of_nodup_map hcn ((pySorted_perm _ _).mem_iff.1 ha)
      ((pySorted_perm _ _).mem_iff.1 hb) (strLe_antisymm hab hba)
  have hfks : pySorted fkLe t1.foreign_keys = pySorted fkLe t2.foreign_keys := by
    refine sorted_perm_unique
      ((pySorted_perm _ _).trans (hk.trans (pySorted_perm _ _).symm))
      (pySorted_sorted fkLe_total (fun a b c h1 h2 => fkLe_trans h1 h2) _)
      (pySorted_sorted fkLe_total (fun a b c h1 h2 => fkLe_trans h1 h2) _) ?_
    intro a ha b hb hab hba
    obtain ⟨h1, h2⟩ := fkLe_key_antisymm hab hba
    refine List.inj_on_of_nodup_map hfn ((pySorted_perm _ _).mem_iff.1 ha)
      ((pySorted_perm _ _).mem_iff.1 hb) ?_
    show (a.from_table, a.to_table) = (b.from_table, b.to_table)
    rw [h1, h2]
  unfold tableChunk
  rw [hn, hcols, hfks]

/-- Tables representing the same logical table: same name, lists of
columns and of foreign keys permutations of each other. -/
def TableEquiv (t1 t2 : TableInfo) : Prop :=
  t1.name = t2.name ∧ t1.columns.Perm t2.columns ∧
    t1.foreign_keys.Perm t2.foreign_keys

/-- Schemas representing the same logical schema: the tables lists match
up to a permutation, with corresponding tables equivalent. -/
def SchemaEquiv (s1 s2 : DatabaseSchema) : Prop :=
  ∃ l, s1.tables.Perm l ∧ List.Forall₂ TableEquiv l s2.tables

/-- The sort keys of the schema are duplicate-free: table names, column
names within each table, and `(from_table, to_table)` foreign-key keys
within each table. -/
def WellNamed (s : DatabaseSchema) : Prop :=
  (s.tables.map (fun t => t.name)).Nodup ∧
  (∀ t ∈ s.tables, (t.columns.map (fun c => c.name)).Nodup) ∧
  (∀ t ∈ s.tables,
    (t.foreign_keys.map (fun fk => (fk.from_table, fk.to_table))).Nodup)

/-- C4 (amended): `generate_schema_hash` is invariant to the order in
which tables, columns and foreign keys were recorded, for any two
schemas representing the same logical schema whose sort keys are
duplicate-free (no two tables share a name, no two columns of a table
share a name, no two foreign keys of a table share the
`(from_table, to_table)` pair); without that proviso the stable sort can
leak input order into the hash (see the counterexample). -/
theorem C4_hash_order_invariance (s1 s2 : DatabaseSchema)
    (heq : SchemaEquiv s1 s2) (hw : WellNamed s1) :
    generate_schema_hash s1 = generate_schema_hash s2 := by
  obtain ⟨l, hperm, hf2⟩ := heq
  obtain ⟨hnames, hcols, hfks⟩ := hw
  have hmapeq : l.map tblKey = s2.tables.map tblKey := by
    refine forall2_map_eq hf2 ?_
    intro a ha b hr
    have ha1 : a ∈ s1.tables := hperm.mem_iff.2 ha
    obtain ⟨hn, hc, hk⟩ := hr
    show (a.name, tableChunk a) = (b.name, tableChunk b)
    rw [hn, tableChunk_eq hn hc hk (hcols a ha1) (hfks a ha1)]
  have hpermKeys : (s1.tables.map tblKey).Perm (s2.tables.map tblKey) := by
    rw [← hmapeq]
    exact hperm.map tblKey
  have hfstnodup : ((s1.tables.map tblKey).map Prod.fst).Nodup := by
    have hfst : (s1.tables.map tblKey).map Prod.fst =
        s1.tables.map (fun t => t.name) := by
      simp [tblKey]
    rw [hfst]
    exact hnames
  have hsortedeq : pySorted pairLe (s1.tables.map tblKey) =
      pySorted pairLe (s2.tables.map tblKey) := by
    refine sorted_perm_unique
      ((pySorted_perm _ _).trans (hpermKeys.trans (pySorted_perm _ _).symm))
      (pySorted_sorted pairLe_total pairLe_trans _)
      (pySorted_sorted pairLe_total pairLe_trans _) ?_
    intro a ha b hb hab hba
    exact List.inj_on_of_nodup_map hfstnodup
      ((pySorted_perm _ _).mem_iff.1 ha) ((pySorted_perm _ _).mem_iff.1 hb)
      (strLe_antisymm hab hba)
  have hcomp : ∀ a b : TableInfo, pairLe (tblKey a) (tblKey b) = tableLe a b :=
    fun a b => rfl
  have hmain : (pySorted tableLe s1.tables).map tblKey =
      (pySorted tableLe s2.tables).map tblKey := by
    rw [pySorted_map tblKey tableLe pairLe hcomp,
      pySorted_map tblKey tableLe pairLe hcomp, hsortedeq]
  have hsplit : ∀ s : DatabaseSchema,
      hashInput s = ((pySorted tableLe s.tables).map tblKey).flatMap Prod.snd := by
    intro s
    rw [List.flatMap_map tblKey Prod.snd (pySorted tableLe s.tables)]
    rfl
  unfold generate_schema_hash
  rw [hsplit s1, hsplit s2, hmain]

/-- A foreign key `A.i -> B.j` (sort key `("A", "B")`). -/
def c4fkBi : ForeignKeyRelation := ⟨"A", "i", "B", "j", none⟩

/-- A foreign key `A.i -> C.j` (sort key `("A", "C")`, distinct from the
previous one). -/
def c4fkCi : ForeignKeyRelation := ⟨"A", "i", "C", "j", none⟩

/-- A single integer column. -/
def c4colId : ColumnInfo :=
  { name := "id", type := "INTEGER" }

/-- Table `A` with its foreign keys recorded in one order. -/
def c4tblA1 : TableInfo := ⟨"A", [c4colId], [], [c4fkBi, c4fkCi], none, none⟩

/-- Table `A` with its foreign keys recorded in the other order. -/
def c4tblA2 : TableInfo := ⟨"A", [c4colId], [], [c4fkCi, c4fkBi], none, none⟩

/-- Table `B`, empty. -/
def c4tblB : TableInfo := ⟨"B", [], [], [], none, none⟩

/-- A two-table schema in one recording order. -/
def c4s1 : DatabaseSchema :=
  { database_name := "d", database_type := "sqlite",
    tables := [c4tblA1, c4tblB], relationships := [c4fkBi, c4fkCi],
    total_tables := 2, extracted_at := "2024-01-01T00:00:00" }

/-- The same logical schema with both the tables list and table `A`'s
foreign-key list permuted. -/
def c4s2 : DatabaseSchema :=
  { database_name := "d", database_type := "sqlite",
    tables := [c4tblB, c4tblA2], relationships := [c4fkCi, c4fkBi],
    total_tables := 2, extracted_at := "2024-01-01T00:00:00" }

theorem C4_witness :
    SchemaEquiv c4s1 c4s2 ∧ WellNamed c4s1 ∧
      generate_schema_hash c4s1 = generate_schema_hash c4s2 := by
  have hw : WellNamed c4s1 := ⟨by decide, by decide, by decide⟩
  have he : SchemaEquiv c4s1 c4s2 :=
    ⟨[c4tblB, c4tblA1], List.Perm.swap _ _ _,
      List.Forall₂.cons ⟨rfl, List.Perm.refl _, List.Perm.refl _⟩
        (List.Forall₂.cons ⟨rfl, List.Perm.refl _, List.Perm.swap _ _ _⟩
          List.Forall₂.nil)⟩
  exact ⟨he, hw, C4_hash_order_invariance c4s1 c4s2 he hw⟩

/-! ## Namespaced cache keys (`CacheService._generate_key`, the component
setters, `clear` by namespace and `clear_schema_cache` in
`app/services/cache_service.py`, claim C9) -/

/-- The namespace values of `CacheService.PREFIXES`. -/
def PREFIXES : List String :=
  ["schema:", "rel:", "table:", "stats:", "path:", "analysis:"]

/-- `CacheService._generate_key`: the MD5 hex digest of the `":"`-joined
namespace and argument strings. -/
def generate_key (pfx : String) (args : List String) : String :=
  md5hex (strBytes (String.intercalate ":" (pfx :: args)))

/-- `CacheService.set_schema`. -/
def CacheService.set_schema {α : Type} (c : CacheService α) (now : Nat)
    (database_name : String) (schema : α) (ttl_seconds : Nat := 1800) :
    Bool × CacheService α :=
  c.set now (generate_key "schema:" [database_name]) schema ttl_seconds

/-- `CacheService.set_table_info`. -/
def CacheService.set_table_info {α : Type} (c : CacheService α) (now : Nat)
    (database_name table_name : String) (table_info : α)
    (ttl_seconds : Nat := 3600) : Bool × CacheService α :=
  c.set now (generate_key "table:" [database_name, table_name]) table_info
    ttl_seconds

/-- `CacheService.set_relationships`. -/
def CacheService.set_relationships {α : Type} (c : CacheService α) (now : Nat)
    (database_name : String) (relationships : α) (ttl_seconds : Nat := 1800) :
    Bool × CacheService α :=
  c.set now (generate_key "rel:" [database_name]) relationships ttl_seconds

/-- `CacheService.set_join_paths`. -/
def CacheService.set_join_paths {α : Type} (c : CacheService α) (now : Nat)
    (database_name start_table end_table : String) (paths : α)
    (ttl_seconds : Nat := 3600) : Bool × CacheService α :=
  c.set now (generate_key "path:" [database_name, start_table, end_table])
    paths ttl_seconds

/-- `CacheService.set_statistics`. -/
def CacheService.set_statistics {α : Type} (c : CacheService α) (now : Nat)
    (database_name table_name : String) (statistics : α)
    (ttl_seconds : Nat := 7200) : Bool × CacheService α :=
  c.set now (generate_key "stats:" [database_name, table_name]) statistics
    ttl_seconds

/-- `CacheService.clear_schema_cache`: with a database name, delete that
schema's entry; with none, clear by the `"schema:"` namespace string
(Python's falsy test on the optional name). -/
def CacheService.clear_schema_cache {α : Type} (c : CacheService α)
    (database_name : Option String) : Nat × CacheService α :=
  match database_name with
  | some db =>
    let r := c.delete (generate_key "schema:" [db])
    (if r.1 then 1 else 0, r.2)
  | none => c.clear (some "schema:")

/-- One call to a component-specific setter, with its wall-clock time. -/
inductive SetterOp (α : Type) where
  | opSchema (now : Nat) (db : String) (v : α) (ttl : Nat)
  | opTableInfo (now : Nat) (db tbl : String) (v : α) (ttl : Nat)
  | opRelationships (now : Nat) (db : String) (v : α) (ttl : Nat)
  | opJoinPaths (now : Nat) (db st en : String) (v : α) (ttl : Nat)
  | opStatistics (now : Nat) (db tbl : String) (v : α) (ttl : Nat)

/-- Apply one setter call, keeping only the state. -/
def applySetter {α : Type} (c : CacheService α) : SetterOp α → CacheService α
  | SetterOp.opSchema now db v ttl => (c.set_schema now db v ttl).2
  | SetterOp.opTableInfo now db tbl v ttl => (c.set_table_info now db tbl v ttl).2
  | SetterOp.opRelationships now db v ttl => (c.set_relationships now db v ttl).2
  | SetterOp.opJoinPaths now db st en v ttl => (c.set_join_paths now db st en v ttl).2
  | SetterOp.opStatistics now db tbl v ttl => (c.set_statistics now db tbl v ttl).2

/-- A cache populated exclusively through the component setters. -/
def runSetters {α : Type} (c : CacheService α) (ops : List (SetterOp α)) :
    CacheService α :=
  ops.foldl applySetter c

/-- A lowercase hexadecimal digit. -/
def isHexChar (ch : Char) : Bool :=
  ('0' ≤ ch && ch ≤ '9') || ('a' ≤ ch && ch ≤ 'f')

/-- A string made of lowercase hexadecimal digits only. -/
def HexKey (k : String) : Prop :=
  ∀ ch ∈ k.data, isHexChar ch = true

theorem isHexChar_hexDigit (n : Nat) : isHexChar (hexDigit n) = true := by
  unfold hexDigit
  rcases Nat.lt_or_ge n 16 with h | h
  · interval_cases n <;> decide
  · have hlen : ("0123456789abcdef".data).length ≤ n := by
      have h16 : ("0123456789abcdef".data).length = 16 := by decide
      omega
    rw [List.getD_eq_default _ _ hlen]
    decide

theorem byteHex_hex (b : Nat) : ∀ ch ∈ (byteHex b).data, isHexChar ch = true := by
  intro ch hch
  rcases List.mem_cons.1 hch with h | h
  · rw [h]; exact isHexChar_hexDigit _
  · rcases List.mem_cons.1 h with h2 | h2
    · rw [h2]; exact isHexChar_hexDigit _
    · exact absurd h2 (by simp)

theorem mem_foldl_append_data :
    ∀ (l : List String) (acc : String) (ch : Char),
      ch ∈ (l.foldl (fun r s => r ++ s) acc).data →
      ch ∈ acc.data ∨ ∃ s ∈ l, ch ∈ s.data := by
  intro l
  induction l with
  | nil => intro acc ch h; exact Or.inl h
  | cons a l ih =>
    intro acc ch h
    simp only [List.foldl_cons] at h
    rcases ih (acc ++ a) ch h with h1 | ⟨s, hs, hch⟩
    · rw [String.data_append acc a] at h1
      rcases List.mem_append.1 h1 with h2 | h2
      · exact Or.inl h2
      · exact Or.inr ⟨a, by simp, h2⟩
    · exact Or.inr ⟨s, List.mem_cons_of_mem _ hs, hch⟩

theorem mem_join_data (l : List String) (ch : Char)
    (h : ch ∈ (String.join l).data) : ∃ s ∈ l, ch ∈ s.data := by
  rcases mem_foldl_append_data l "" ch h with h1 | h2
  · exact absurd h1 (by simp)
  · exact h2

/-- Every MD5 hex digest consists of hexadecimal digits only. -/
theorem md5hex_hexkey (msg : List Nat) : HexKey (md5hex msg) := by
  intro ch hch
  obtain ⟨s, hs, hch2⟩ := mem_join_data _ ch hch
  obtain ⟨b, _, rfl⟩ := List.mem_map.1 hs
  exact byteHex_hex b ch hch2

theorem mem_cleanup_expired {α : Type} {c : CacheService α} {now : Nat}
    {kv : String × CacheEntry α} (h : kv ∈ (c.cleanup_expired now).cache) :
    kv ∈ c.cache := by
  unfold CacheService.cleanup_expired at h
  by_cases hc : now - c.last_cleanup < c.cleanup_interval
  · rw [if_pos hc] at h; exact h
  · rw [if_neg hc] at h; exact (List.mem_filter.1 h).1

theorem mem_evict_if_needed {α : Type} {c : CacheService α}
    {kv : String × CacheEntry α} (h : kv ∈ c.evict_if_needed.cache) :
    kv ∈ c.cache := by
  unfold CacheService.evict_if_needed at h
  by_cases hc : c.cache.length < c.max_size
  · rw [if_pos hc] at h; exact h
  · rw [if_neg hc] at h; exact (List.mem_filter.1 h).1

theorem dictSet_key_mem {β : Type} (d : List (String × β)) (key : String)
    (v : β) : ∀ kv ∈ dictSet d key v, kv.1 = key ∨ ∃ kv' ∈ d, kv.1 = kv'.1 := by
  intro kv hkv
  unfold dictSet at hkv
  by_cases h : d.any (fun x => x.1 == key) = true
  · rw [if_pos h] at hkv
    obtain ⟨kv', hkv', heq⟩ := List.mem_map.1 hkv
    by_cases h2 : (kv'.1 == key) = true
    · rw [if_pos h2] at heq
      exact Or.inr ⟨kv', hkv', by rw [← heq]⟩
    · rw [if_neg h2] at heq
      exact Or.inr ⟨kv', hkv', by rw [← heq]⟩
  · rw [if_neg h] at hkv
    rcases List.mem_append.1 hkv with h1 | h2
    · exact Or.inr ⟨kv, h1, rfl⟩
    · simp only [List.mem_singleton] at h2
      exact Or.inl (by rw [h2])

theorem keysHex_set {α : Type} {c : CacheService α}
    (h : ∀ kv ∈ c.cache, HexKey kv.1) (now : Nat) {key : String}
    (hk : HexKey key) (v : α) (ttl : Nat) :
    ∀ kv ∈ (c.set now key v ttl).2.cache, HexKey kv.1 := by
  intro kv hkv
  have hkv2 : kv ∈ dictSet ((c.cleanup_expired now).evict_if_needed).cache key
      (CacheEntry.make now key v ttl) := hkv
  rcases dictSet_key_mem _ _ _ kv hkv2 with h1 | ⟨kv', hkv', he⟩
  · rw [h1]; exact hk
  · rw [he]
    exact h kv' (mem_cleanup_expired (mem_evict_if_needed hkv'))

theorem keysHex_applySetter {α : Type} {c : CacheService α}
    (h : ∀ kv ∈ c.cache, HexKey kv.1) (op : SetterOp α) :
    ∀ kv ∈ (applySetter c op).cache, HexKey kv.1 := by
  cases op with
  | opSchema now db v ttl => exact keysHex_set h now (md5hex_hexkey _) v ttl
  | opTableInfo now db tbl v ttl => exact keysHex_set h now (md5hex_hexkey _) v ttl
  | opRelationships now db v ttl => exact keysHex_set h now (md5hex_hexkey _) v ttl
  | opJoinPaths now db st en v ttl => exact keysHex_set h now (md5hex_hexkey _) v ttl
  | opStatistics now db tbl v ttl => exact keysHex_set h now (md5hex_hexkey _) v ttl

theorem keysHex_runSetters {α : Type} :
    ∀ (ops : List (SetterOp α)) (c : CacheService α),
      (∀ kv ∈ c.cache, HexKey kv.1) →
      ∀ kv ∈ (runSetters c ops).cache, HexKey kv.1 := by
  intro ops
  induction ops with
  | nil => intro c h; exact h
  | cons op ops ih => intro c h; exact ih (applySetter c op) (keysHex_applySetter h op)

/-- No namespace string is a prefix of a hex key: each namespace contains
the non-hexadecimal character `:`. -/
theorem hexkey_no_namespace {p k : String} (hp : p ∈ PREFIXES)
    (hk : HexKey k) : p.data.isPrefixOf k.data = false := by
  cases hb : p.data.isPrefixOf k.data with
  | false => rfl
  | true =>
    exfalso
    have hpre : p.data <+: k.data := List.isPrefixOf_iff_prefix.1 hb
    have hcolon : ∀ q ∈ PREFIXES, (':' : Char) ∈ q.data := by decide
    have hbad := hk ':' (hpre.sublist.subset (hcolon p hp))
    exact absurd hbad (by decide)

/-- C9: on a cache populated exclusively through the component-specific
setters, `clear` with any namespace string from `PREFIXES` removes zero
entries, returns 0 and leaves the state unchanged, because every stored
key is an MD5 hex digest and no hex digest starts with a namespace
string; in particular `clear_schema_cache` with no database name leaves
every cached schema in place. -/
theorem C9_namespace_clear_removes_nothing {α : Type} (c0 : CacheService α)
    (ops : List (SetterOp α)) (h0 : c0.cache = [])
    (p : String) (hp : p ∈ PREFIXES) :
    (runSetters c0 ops).clear (some p) = (0, runSetters c0 ops) ∧
    (runSetters c0 ops).clear_schema_cache none = (0, runSetters c0 ops) := by
  have hkeys : ∀ kv ∈ (runSetters c0 ops).cache, HexKey kv.1 :=
    keysHex_runSetters ops c0 (by rw [h0]; intro kv hkv; exact absurd hkv (by simp))
  have hclear : ∀ q ∈ PREFIXES,
      (runSetters c0 ops).clear (some q) = (0, runSetters c0 ops) := by
    intro q hq
    have hnone : ∀ kv ∈ (runSetters c0 ops).cache,
        q.data.isPrefixOf kv.1.data = false :=
      fun kv hkv => hexkey_no_namespace hq (hkeys kv hkv)
    have h1 : (((runSetters c0 ops).cache.map (fun kv => kv.1)).filter
        (fun k => q.data.isPrefixOf k.data)) = [] := by
      rw [List.filter_eq_nil_iff]
      intro k hk
      obtain ⟨kv, hkv, rfl⟩ := List.mem_map.1 hk
      simp [hnone kv hkv]
    have h2 : (runSetters c0 ops).cache.filter
        (fun kv => !(q.data.isPrefixOf kv.1.data)) = (runSetters c0 ops).cache := by
      rw [List.filter_eq_self]
      intro kv hkv
      simp [hnone kv hkv]
    have hfst : ((runSetters c0 ops).clear (some q)).1 = 0 := by
      show (((runSetters c0 ops).cache.map (fun kv => kv.1)).filter
        (fun k => q.data.isPrefixOf k.data)).length = 0
      rw [h1]
      rfl
    have hsnd : ((runSetters c0 ops).clear (some q)).2 = runSetters c0 ops := by
      show { runSetters c0 ops with cache := (runSetters c0 ops).cache.filter (fun kv => !(q.data.isPrefixOf kv.1.data)) } = runSetters c0 ops
      rw [h2]
    exact Prod.ext hfst hsnd
  refine ⟨hclear p hp, ?_⟩
  show (runSetters c0 ops).clear (some "schema:") = (0, runSetters c0 ops)
  exact hclear "schema:" (by decide)

theorem C9_witness :
    (CacheService.make Nat 0).cache = [] ∧ "schema:" ∈ PREFIXES ∧
    (runSetters (CacheService.make Nat 0)
        [SetterOp.opSchema 5 "db" 42 1800]).clear (some "schema:") =
      (0, runSetters (CacheService.make Nat 0)
        [SetterOp.opSchema 5 "db" 42 1800]) := by
  refine ⟨rfl, by decide, ?_⟩
  exact (C9_namespace_clear_removes_nothing (CacheService.make Nat 0)
    [SetterOp.opSchema 5 "db" 42 1800] rfl "schema:" (by decide)).1
